import Mathlib

/-!
# Verification of the bettingbot hand evaluator and hand strength calculator

A shallow embedding of the poker hand evaluator (`poker4.py`, class
`HandEvaluator` and the `Card` model) and of the hand strength calculator
(`poker5.py`, class `HandStrengthCalculator`), with theorems settling the
specification claims about them.

Python floats are modelled as exact rationals (`ℚ`); all constants in the
source (0.1, 0.25, 0.35, 0.4, 0.5, 0.7, 0.3, ...) are dyadic/decimal literals
whose arithmetic here mirrors the source formulas.  Python `raise` is
modelled by `Option`: a function that raises returns `none`.  Python's
`sorted(..., reverse=True)` is a stable descending sort, embedded as the
insertion sorts below.  Python dicts keyed by suit/value preserve insertion
order of keys; the embedding keeps first-occurrence order via `dedupFirst`.
-/

namespace BettingBot

/-- The four suits of `poker4.Suit`. -/
inductive Suit where
  | HEARTS
  | DIAMONDS
  | CLUBS
  | SPADES
deriving DecidableEq, Repr, Fintype

/-- `poker4.Card`: a rank (`value`, 2..14 for valid cards) and a suit. -/
structure Card where
  value : Nat
  suit : Suit
deriving DecidableEq, Repr

instance : Inhabited Card := ⟨⟨2, Suit.HEARTS⟩⟩

/-- `Card.__init__` validates `2 <= value <= 14` and raises `ValueError`
otherwise; the argument is a Python int, modelled as `Int`. -/
def mkCard (value : Int) (suit : Suit) : Option Card :=
  if 2 ≤ value ∧ value ≤ 14 then some ⟨value.toNat, suit⟩ else none

/-- The ten hand categories of `poker4.HandRank`. -/
inductive HandRank where
  | HIGH_CARD
  | PAIR
  | TWO_PAIR
  | THREE_OF_A_KIND
  | STRAIGHT
  | FLUSH
  | FULL_HOUSE
  | FOUR_OF_A_KIND
  | STRAIGHT_FLUSH
  | ROYAL_FLUSH
deriving DecidableEq, Repr

/-! ## Stable sorting, as performed by Python `sorted`

`sorted(cards, key=lambda c: c.value, reverse=True)` is a stable descending
sort by rank: an insertion sort where each element is placed before the first
strictly smaller element keeps equal-rank cards in input order. -/

/-- Insert a card into a descending-by-value list, before the first element
of strictly smaller value. -/
def insertDesc (c : Card) : List Card → List Card
  | [] => [c]
  | x :: xs => if x.value ≤ c.value then c :: x :: xs else x :: insertDesc c xs

/-- Stable descending sort of cards by `value`. -/
def sortCardsDesc (l : List Card) : List Card := l.foldr insertDesc []

/-- Insert a number into a descending list of numbers. -/
def insertNatDesc (v : Nat) : List Nat → List Nat
  | [] => [v]
  | x :: xs => if x ≤ v then v :: x :: xs else x :: insertNatDesc v xs

/-- Descending sort of numbers, for `sorted(set(...), reverse=True)`. -/
def sortValsDesc (l : List Nat) : List Nat := l.foldr insertNatDesc []

/-- Insert a number into an ascending list of numbers. -/
def insertNatAsc (v : Nat) : List Nat → List Nat
  | [] => [v]
  | x :: xs => if v ≤ x then v :: x :: xs else x :: insertNatAsc v xs

/-- Ascending sort of numbers, for `sorted(set(...))`. -/
def sortValsAsc (l : List Nat) : List Nat := l.foldr insertNatAsc []

/-! ## First-occurrence deduplication (Python `set` / dict key order) -/

/-- Keep the first occurrence of each element, skipping elements already
`seen`. -/
def dedupFirstAux [DecidableEq α] (seen : List α) : List α → List α
  | [] => []
  | x :: xs => if x ∈ seen then dedupFirstAux seen xs else x :: dedupFirstAux (x :: seen) xs

/-- Keep the first occurrence of each element of `l`. -/
def dedupFirst [DecidableEq α] (l : List α) : List α := dedupFirstAux [] l

/-- The distinct card values of a hand, in first-occurrence order
(`set(card.value for card in hand)` before sorting). -/
def distinct_values (hand : List Card) : List Nat := dedupFirst (hand.map (fun c => c.value))

/-- The distinct suits of a hand, in first-occurrence order (the key order
of the dict built by `suits.setdefault(card.suit, []).append(card)`). -/
def suits_in_order (hand : List Card) : List Suit := dedupFirst (hand.map (fun c => c.suit))

/-- The distinct values of a hand, sorted descending:
`sorted(set(card.value for card in hand), reverse=True)`. -/
def values_desc (hand : List Card) : List Nat := sortValsDesc (distinct_values hand)

/-- The cards of the hand holding the given value, in hand order (a value
group of the dict built by `value_groups.setdefault(card.value, [])`). -/
def filterVal (hand : List Card) (v : Nat) : List Card :=
  hand.filter (fun c => c.value == v)

/-- The cards of the hand NOT holding the given value, in hand order. -/
def filterNotVal (hand : List Card) (v : Nat) : List Card :=
  hand.filter (fun c => !(c.value == v))

/-- The cards of the hand of the given suit, in hand order (a suit group of
the dict built by `suits.setdefault(card.suit, [])`). -/
def filterSuit (hand : List Card) (s : Suit) : List Card :=
  hand.filter (fun c => c.suit == s)

/-! ## `HandEvaluator` (poker4.py) -/

/-- `HandEvaluator._get_flush_cards`: group the hand by suit; for the first
suit (in key order) holding at least 5 cards, return its cards sorted
descending by value, truncated to 5; otherwise the empty list. -/
def get_flush_cards (hand : List Card) : List Card :=
  match (suits_in_order hand).find? (fun s => decide (5 ≤ (filterSuit hand s).length)) with
  | some s => (sortCardsDesc (filterSuit hand s)).take 5
  | none => []

/-- The window search of `_get_straight_cards`: over the descending distinct
values, return the first `values[i]` with `values[i] - values[i+4] == 4`. -/
def find_straight_high : List Nat → Option Nat
  | v0 :: v1 :: v2 :: v3 :: v4 :: rest =>
      if v0 - v4 = 4 then some v0 else find_straight_high (v1 :: v2 :: v3 :: v4 :: rest)
  | _ => none

/-- The inner loop of `_get_straight_cards`: the first card of the hand with
the given value, as a zero- or one-element list (`break` after appending). -/
def pick_value (hand : List Card) (v : Nat) : List Card :=
  match hand.find? (fun c => c.value == v) with
  | some c => [c]
  | none => []

/-- `_get_straight_cards`: find a window of 5 consecutive distinct values;
collect, for each value from the top of the window downwards, the first card
of the hand holding it. -/
def get_straight_cards (hand : List Card) : List Card :=
  match find_straight_high (values_desc hand) with
  | some hi =>
      pick_value hand hi ++ pick_value hand (hi - 1) ++ pick_value hand (hi - 2)
        ++ pick_value hand (hi - 3) ++ pick_value hand (hi - 4)
  | none => []

/-- `HandEvaluator._get_n_of_a_kind`: for the highest value held by at least
`n` cards, take `n` of its cards (in hand order) and fill up to 5 cards with
the highest-ranked cards of different value as kickers. -/
def get_n_of_a_kind (hand : List Card) (n : Nat) : List Card :=
  match (values_desc hand).find? (fun v => decide (n ≤ (filterVal hand v).length)) with
  | some v => (filterVal hand v).take n ++ (filterNotVal (sortCardsDesc hand) v).take (5 - n)
  | none => []

/-- `HandEvaluator._get_full_house`: a three of a kind plus a pair among the
cards of a different value. -/
def get_full_house (hand : List Card) : List Card :=
  match get_n_of_a_kind hand 3 with
  | [] => []
  | t :: ts =>
      let remaining_cards := filterNotVal hand t.value
      match get_n_of_a_kind remaining_cards 2 with
      | [] => []
      | p :: ps => ((t :: ts).take 3) ++ ((p :: ps).take 2)

/-- The kicker selection of `_get_two_pair`: the first card, in descending
rank order, whose value differs from both collected pair values
(`pairs[0]` and `pairs[2]`), as a zero- or one-element list. -/
def two_pair_kicker (hand pairs2 : List Card) : List Card :=
  match (sortCardsDesc hand).find?
      (fun c => !(c.value == (pairs2.getD 0 default).value)
        && !(c.value == (pairs2.getD 2 default).value)) with
  | some c => [c]
  | none => []

/-- The accumulation loop of `_get_two_pair` over the descending distinct
values: collect two cards from each value with at least two; once 4 cards
are collected, append the highest card whose value differs from both pair
values. -/
def two_pair_loop (hand : List Card) : List Nat → List Card → List Card
  | [], _ => []
  | v :: vs, pairs =>
      if 2 ≤ (filterVal hand v).length then
        let pairs2 := pairs ++ (filterVal hand v).take 2
        if 4 ≤ pairs2.length then pairs2.take 4 ++ two_pair_kicker hand pairs2
        else two_pair_loop hand vs pairs2
      else two_pair_loop hand vs pairs

/-- `HandEvaluator._get_two_pair`. -/
def get_two_pair (hand : List Card) : List Card :=
  two_pair_loop hand (values_desc hand) []

/-- The straight-flush candidate of `evaluate`: straight detection run on
the flush candidate cards, when a flush is present. -/
def sf_cards (hand : List Card) : List Card :=
  if (get_flush_cards hand).isEmpty then [] else get_straight_cards (get_flush_cards hand)

/-- The body of `HandEvaluator.evaluate` after the size check: the sequential
category dispatch, strongest first. -/
def eval_go (hand : List Card) : HandRank × List Card :=
  match sf_cards hand with
  | c :: rest =>
      if c.value = 14 then (HandRank.ROYAL_FLUSH, c :: rest)
      else (HandRank.STRAIGHT_FLUSH, c :: rest)
  | [] =>
      match get_n_of_a_kind hand 4 with
      | fk :: fks => (HandRank.FOUR_OF_A_KIND, fk :: fks)
      | [] =>
          match get_full_house hand with
          | fh :: fhs => (HandRank.FULL_HOUSE, fh :: fhs)
          | [] =>
              if !(get_flush_cards hand).isEmpty then
                (HandRank.FLUSH, (get_flush_cards hand).take 5)
              else
                match get_straight_cards hand with
                | st :: sts => (HandRank.STRAIGHT, st :: sts)
                | [] =>
                    match get_n_of_a_kind hand 3 with
                    | tk :: tks => (HandRank.THREE_OF_A_KIND, tk :: tks)
                    | [] =>
                        match get_two_pair hand with
                        | tp :: tps => (HandRank.TWO_PAIR, tp :: tps)
                        | [] =>
                            match get_n_of_a_kind hand 2 with
                            | p :: ps => (HandRank.PAIR, p :: ps)
                            | [] => (HandRank.HIGH_CARD, (sortCardsDesc hand).take 5)

/-- `HandEvaluator.evaluate`: raises (returns `none`) on fewer than 5 cards,
otherwise dispatches over the categories. -/
def evaluate (hand : List Card) : Option (HandRank × List Card) :=
  if hand.length < 5 then none else some (eval_go hand)

/-! ## `HandStrengthCalculator` (poker5.py)

Floats are modelled as exact rationals.  The calculator's preflop path
raises on a hole-card count other than 2, and its made-hand path calls
`evaluate`, which raises below 5 cards; both are modelled with `Option`. -/

/-- The score computed by `_calculate_preflop_strength` on the sorted pair
`a` (high card) and `b` (low card): pairs scale from 0.5 to 1.0; otherwise
the high-card base takes bonuses for suitedness, connectedness and a high
low card, clamped to at most 1.0. -/
def preflop_score (a b : Card) : ℚ :=
  if a.value = b.value then 1/2 + ((a.value : ℚ) - 2) / 24
  else
    let suited := a.suit = b.suit
    let gap := a.value - b.value - 1
    let base : ℚ := 3/10 + ((a.value : ℚ) - 2) / 24
    let s1 := if suited then base + 1/10 else base
    let s2 := if gap = 0 then s1 + 1/10 else if gap = 1 then s1 + 1/20 else s1
    let s3 := if 10 ≤ b.value then s2 + 1/10 else s2
    min 1 s3

/-- `HandStrengthCalculator._calculate_preflop_strength`: raises (`none`)
unless exactly 2 cards; otherwise scores the pair sorted descending. -/
def calculate_preflop_strength (hand : List Card) : Option ℚ :=
  if hand.length ≠ 2 then none
  else
    match sortCardsDesc hand with
    | a :: b :: _ => some (preflop_score a b)
    | _ => none

/-- The base-strength table of `_calculate_made_hand_strength`. -/
def base_strength : HandRank → ℚ
  | HandRank.HIGH_CARD => 1/10
  | HandRank.PAIR => 2/10
  | HandRank.TWO_PAIR => 4/10
  | HandRank.THREE_OF_A_KIND => 6/10
  | HandRank.STRAIGHT => 7/10
  | HandRank.FLUSH => 8/10
  | HandRank.FULL_HOUSE => 9/10
  | HandRank.FOUR_OF_A_KIND => 95/100
  | HandRank.STRAIGHT_FLUSH => 98/100
  | HandRank.ROYAL_FLUSH => 1

/-- `HandStrengthCalculator._calculate_quality_adjustment`: differentiates
hands inside a category; indexing `best_cards[0]` / `best_cards[2]` is
total here via `getD` (the source always passes 5-card lists). -/
def calculate_quality_adjustment (hand_rank : HandRank) (best_cards : List Card) : ℚ :=
  match hand_rank with
  | HandRank.HIGH_CARD => (((best_cards.getD 0 default).value : ℚ) - 2) / 12
  | HandRank.PAIR => (((best_cards.getD 0 default).value : ℚ) - 2) / 12
  | HandRank.TWO_PAIR =>
      ((((best_cards.getD 0 default).value : ℚ) - 2)
        + (((best_cards.getD 2 default).value : ℚ) - 2)) / 24
  | _ => 1

/-- `HandStrengthCalculator._calculate_made_hand_strength`: evaluate the
combined cards and weight the category's base strength by the quality
adjustment. -/
def calculate_made_hand_strength (hand community_cards : List Card) : Option ℚ :=
  match evaluate (hand ++ community_cards) with
  | some (hand_rank, best_cards) =>
      some (base_strength hand_rank * calculate_quality_adjustment hand_rank best_cards)
  | none => none

/-- The distinct card values sorted ascending (`sorted(set(...))` in
`_identify_draws`). -/
def vals_asc (cards : List Card) : List Nat := sortValsAsc (distinct_values cards)

/-- The consecutive differences of the ascending distinct values
(`gaps` in `_identify_draws`). -/
def gaps_of (cards : List Card) : List Nat :=
  List.zipWith (fun a b => b - a) (vals_asc cards) (vals_asc cards).tail

/-- `HandStrengthCalculator._identify_draws`: a flush draw for a suit with
exactly 4 cards; a straight draw when the first three gaps of the ascending
distinct values sum to 3 (open-ended, 8 outs) or else to 4 (gutshot,
4 outs).  Dict insertion order is the returned list order. -/
def identify_draws (cards : List Card) : List (String × Nat) :=
  let flush_draws :=
    if (suits_in_order cards).any (fun s => (filterSuit cards s).length == 4)
    then [("flush_draw", 9)] else []
  let straight_draws :=
    if 4 ≤ (vals_asc cards).length ∧ ((gaps_of cards).take 3).sum = 3 then
      [("straight_draw", 8)]
    else if 4 ≤ (vals_asc cards).length ∧ ((gaps_of cards).take 3).sum = 4 then
      [("straight_draw", 4)]
    else []
  flush_draws ++ straight_draws

/-- One iteration of the strength loop of `_calculate_drawing_strength`. -/
def draw_step (strength : ℚ) (d : String × Nat) : ℚ :=
  if d.1 = "flush_draw" then max strength (4/10)
  else if d.1 = "straight_draw" then max strength (if 8 ≤ d.2 then 35/100 else 25/100)
  else if d.1 = "two_pair_draw" then max strength (2/10)
  else strength

/-- `HandStrengthCalculator._calculate_drawing_strength`: zero on the river,
otherwise the maximum contribution over the identified draws. -/
def calculate_drawing_strength (hand community_cards : List Card) : ℚ :=
  if 5 ≤ community_cards.length then 0
  else (identify_draws (hand ++ community_cards)).foldl draw_step 0

/-- `HandStrengthCalculator.calculate_full_strength`: preflop heuristic with
no community cards, otherwise the blend of made-hand and drawing strength. -/
def calculate_full_strength (hand community_cards : List Card) : Option ℚ :=
  if community_cards.isEmpty then calculate_preflop_strength hand
  else
    match calculate_made_hand_strength hand community_cards with
    | some current_strength =>
        let drawing_strength := calculate_drawing_strength hand community_cards
        some (max current_strength (current_strength * (7/10) + drawing_strength * (3/10)))
    | none => none

/-! ## Lexicographic rank comparison (spec notion for tie-break claims)

The spec's tie-break order compares the best-5 sequences of two hands
lexicographically by rank; this Boolean comparison is the spec-side notion
used to state those claims. -/

/-- Strict lexicographic order on value sequences. -/
def lexLtVals : List Nat → List Nat → Bool
  | [], [] => false
  | [], _ :: _ => true
  | _ :: _, [] => false
  | a :: as, b :: bs => if a < b then true else if b < a then false else lexLtVals as bs

/-! ## Lemmas: the stable descending card sort -/

theorem insertDesc_perm (c : Card) (l : List Card) : (insertDesc c l).Perm (c :: l) := by
  induction l with
  | nil => simp [insertDesc]
  | cons x xs ih =>
      simp only [insertDesc]
      split
      · exact List.Perm.refl _
      · exact (ih.cons x).trans (List.Perm.swap c x xs)

theorem sortCardsDesc_perm (l : List Card) : (sortCardsDesc l).Perm l := by
  induction l with
  | nil => simp [sortCardsDesc]
  | cons a l ih => exact (insertDesc_perm a (sortCardsDesc l)).trans (ih.cons a)

theorem mem_sortCardsDesc {l : List Card} {c : Card} : c ∈ sortCardsDesc l ↔ c ∈ l :=
  (sortCardsDesc_perm l).mem_iff

theorem length_sortCardsDesc (l : List Card) : (sortCardsDesc l).length = l.length :=
  (sortCardsDesc_perm l).length_eq

theorem insertDesc_sorted {l : List Card} (h : l.Pairwise (fun a b => b.value ≤ a.value))
    (c : Card) : (insertDesc c l).Pairwise (fun a b => b.value ≤ a.value) := by
  induction l with
  | nil => simp [insertDesc]
  | cons x xs ih =>
      rw [List.pairwise_cons] at h
      simp only [insertDesc]
      split
      · rename_i hc
        refine List.pairwise_cons.mpr ⟨?_, List.pairwise_cons.mpr h⟩
        intro b hb
        rcases List.mem_cons.mp hb with rfl | hb
        · exact hc
        · exact le_trans (h.1 b hb) hc
      · rename_i hc
        refine List.pairwise_cons.mpr ⟨?_, ih h.2⟩
        intro b hb
        rcases List.mem_cons.mp ((insertDesc_perm c xs).mem_iff.mp hb) with rfl | hb
        · omega
        · exact h.1 b hb

theorem sortCardsDesc_sorted (l : List Card) :
    (sortCardsDesc l).Pairwise (fun a b => b.value ≤ a.value) := by
  induction l with
  | nil => simp [sortCardsDesc]
  | cons a l ih => exact insertDesc_sorted ih a

theorem insertDesc_eq_cons {c : Card} {l : List Card} (h : ∀ x ∈ l, x.value ≤ c.value) :
    insertDesc c l = c :: l := by
  cases l with
  | nil => rfl
  | cons x xs => simp [insertDesc, h x (List.mem_cons_self x xs)]

theorem sortCardsDesc_eq_self {l : List Card}
    (h : l.Pairwise (fun a b => b.value ≤ a.value)) : sortCardsDesc l = l := by
  induction l with
  | nil => rfl
  | cons a l ih =>
      rw [List.pairwise_cons] at h
      show insertDesc a (sortCardsDesc l) = a :: l
      rw [ih h.2, insertDesc_eq_cons h.1]

theorem filter_insertDesc (p : Card → Bool) {c : Card} {l : List Card}
    (h : l.Pairwise (fun a b => b.value ≤ a.value)) :
    (insertDesc c l).filter p = if p c then insertDesc c (l.filter p) else l.filter p := by
  induction l with
  | nil => cases hc : p c <;> simp [insertDesc, List.filter, hc]
  | cons x xs ih =>
      rw [List.pairwise_cons] at h
      simp only [insertDesc]
      by_cases hxc : x.value ≤ c.value
      · rw [if_pos hxc]
        cases hc : p c with
        | false => simp [List.filter_cons, hc]
        | true =>
            have hall : ∀ y ∈ (x :: xs).filter p, y.value ≤ c.value := by
              intro y hy
              rcases List.mem_cons.mp (List.mem_of_mem_filter hy) with rfl | hy2
              · exact hxc
              · exact le_trans (h.1 y hy2) hxc
            rw [insertDesc_eq_cons hall]
            simp [List.filter_cons, hc]
      · rw [if_neg hxc, List.filter_cons, ih h.2, List.filter_cons]
        cases hx : p x with
        | false => simp [hx]
        | true =>
            cases hc : p c with
            | false => simp [hx, hc]
            | true =>
                have hstep : insertDesc c (x :: xs.filter p) = x :: insertDesc c (xs.filter p) := by
                  rw [insertDesc, if_neg hxc]
                simp [hx, hc, hstep]

theorem sortCardsDesc_filter (p : Card → Bool) (l : List Card) :
    (sortCardsDesc l).filter p = sortCardsDesc (l.filter p) := by
  induction l with
  | nil => rfl
  | cons a l ih =>
      show (insertDesc a (sortCardsDesc l)).filter p = sortCardsDesc ((a :: l).filter p)
      rw [filter_insertDesc p (sortCardsDesc_sorted l), ih, List.filter_cons]
      cases hp : p a <;> simp [hp, sortCardsDesc]

/-! ## Lemmas: the descending number sort and first-occurrence dedup -/

theorem insertNatDesc_perm (v : Nat) (l : List Nat) : (insertNatDesc v l).Perm (v :: l) := by
  induction l with
  | nil => simp [insertNatDesc]
  | cons x xs ih =>
      simp only [insertNatDesc]
      split
      · exact List.Perm.refl _
      · exact (ih.cons x).trans (List.Perm.swap v x xs)

theorem sortValsDesc_perm (l : List Nat) : (sortValsDesc l).Perm l := by
  induction l with
  | nil => simp [sortValsDesc]
  | cons a l ih => exact (insertNatDesc_perm a (sortValsDesc l)).trans (ih.cons a)

theorem mem_sortValsDesc {l : List Nat} {v : Nat} : v ∈ sortValsDesc l ↔ v ∈ l :=
  (sortValsDesc_perm l).mem_iff

theorem insertNatDesc_sorted {l : List Nat} (h : l.Pairwise (· ≥ ·)) (v : Nat) :
    (insertNatDesc v l).Pairwise (· ≥ ·) := by
  induction l with
  | nil => simp [insertNatDesc]
  | cons x xs ih =>
      rw [List.pairwise_cons] at h
      simp only [insertNatDesc]
      split
      · rename_i hc
        refine List.pairwise_cons.mpr ⟨?_, List.pairwise_cons.mpr h⟩
        intro b hb
        rcases List.mem_cons.mp hb with rfl | hb
        · exact hc
        · exact le_trans (h.1 b hb) hc
      · rename_i hc
        refine List.pairwise_cons.mpr ⟨?_, ih h.2⟩
        intro b hb
        rcases List.mem_cons.mp ((insertNatDesc_perm v xs).mem_iff.mp hb) with rfl | hb
        · omega
        · exact h.1 b hb

theorem sortValsDesc_sorted (l : List Nat) : (sortValsDesc l).Pairwise (· ≥ ·) := by
  induction l with
  | nil => simp [sortValsDesc]
  | cons a l ih => exact insertNatDesc_sorted ih a

theorem insertNatDesc_eq_cons {v : Nat} {l : List Nat} (h : ∀ x ∈ l, x ≤ v) :
    insertNatDesc v l = v :: l := by
  cases l with
  | nil => rfl
  | cons x xs => simp [insertNatDesc, h x (List.mem_cons_self x xs)]

theorem sortValsDesc_eq_self {l : List Nat} (h : l.Pairwise (· ≥ ·)) :
    sortValsDesc l = l := by
  induction l with
  | nil => rfl
  | cons a l ih =>
      rw [List.pairwise_cons] at h
      show insertNatDesc a (sortValsDesc l) = a :: l
      rw [ih h.2, insertNatDesc_eq_cons h.1]

theorem mem_dedupFirstAux [DecidableEq α] {seen l : List α} {x : α} :
    x ∈ dedupFirstAux seen l ↔ x ∈ l ∧ x ∉ seen := by
  induction l generalizing seen with
  | nil => simp [dedupFirstAux]
  | cons a l ih =>
      simp only [dedupFirstAux]
      split
      · rename_i ha
        rw [ih, List.mem_cons]
        constructor
        · rintro ⟨h1, h2⟩; exact ⟨Or.inr h1, h2⟩
        · rintro ⟨h1 | h1, h2⟩
          · exact absurd (h1 ▸ ha) h2
          · exact ⟨h1, h2⟩
      · rename_i ha
        simp only [List.mem_cons, ih, List.mem_cons]
        constructor
        · rintro (rfl | ⟨h1, h2⟩)
          · exact ⟨Or.inl rfl, ha⟩
          · exact ⟨Or.inr h1, fun hx => h2 (Or.inr hx)⟩
        · rintro ⟨rfl | h1, h2⟩
          · exact Or.inl rfl
          · by_cases hxa : x = a
            · exact Or.inl hxa
            · exact Or.inr ⟨h1, fun hx => hx.elim hxa h2⟩

theorem nodup_dedupFirstAux [DecidableEq α] (seen l : List α) :
    (dedupFirstAux seen l).Nodup := by
  induction l generalizing seen with
  | nil => simp [dedupFirstAux]
  | cons a l ih =>
      simp only [dedupFirstAux]
      split
      · exact ih seen
      · refine List.nodup_cons.mpr ⟨?_, ih (a :: seen)⟩
        rw [mem_dedupFirstAux]
        rintro ⟨-, h2⟩
        exact h2 (List.mem_cons_self a seen)

theorem mem_dedupFirst [DecidableEq α] {l : List α} {x : α} :
    x ∈ dedupFirst l ↔ x ∈ l := by
  rw [dedupFirst, mem_dedupFirstAux]
  simp

theorem nodup_dedupFirst [DecidableEq α] (l : List α) : (dedupFirst l).Nodup :=
  nodup_dedupFirstAux [] l

theorem dedupFirstAux_eq_self [DecidableEq α] {seen l : List α} (hl : l.Nodup)
    (hs : ∀ x ∈ l, x ∉ seen) : dedupFirstAux seen l = l := by
  induction l generalizing seen with
  | nil => rfl
  | cons a l ih =>
      rw [List.nodup_cons] at hl
      rw [dedupFirstAux, if_neg (hs a (List.mem_cons_self a l))]
      congr 1
      refine ih hl.2 (fun x hx hmem => ?_)
      rcases List.mem_cons.mp hmem with rfl | hmem
      · exact hl.1 hx
      · exact hs x (List.mem_cons_of_mem a hx) hmem

theorem dedupFirst_eq_self [DecidableEq α] {l : List α} (hl : l.Nodup) :
    dedupFirst l = l :=
  dedupFirstAux_eq_self hl (by simp)

/-! ## Lemmas: distinct values and suits -/

theorem mem_distinct_values {hand : List Card} {v : Nat} :
    v ∈ distinct_values hand ↔ ∃ c ∈ hand, c.value = v := by
  rw [distinct_values, mem_dedupFirst, List.mem_map]

theorem mem_values_desc {hand : List Card} {v : Nat} :
    v ∈ values_desc hand ↔ ∃ c ∈ hand, c.value = v := by
  rw [values_desc, mem_sortValsDesc, mem_distinct_values]

theorem nodup_values_desc (hand : List Card) : (values_desc hand).Nodup :=
  (sortValsDesc_perm _).nodup_iff.mpr (nodup_dedupFirst _)

theorem values_desc_strict (hand : List Card) : (values_desc hand).Pairwise (· > ·) := by
  have h1 := sortValsDesc_sorted (distinct_values hand)
  have h2 := nodup_values_desc hand
  rw [List.Nodup] at h2
  exact (h1.and h2).imp (fun {a b} h => lt_of_le_of_ne h.1 (Ne.symm h.2))

theorem mem_filterVal {hand : List Card} {v : Nat} {c : Card} :
    c ∈ filterVal hand v ↔ c ∈ hand ∧ c.value = v := by
  simp [filterVal, List.mem_filter]

theorem mem_filterNotVal {hand : List Card} {v : Nat} {c : Card} :
    c ∈ filterNotVal hand v ↔ c ∈ hand ∧ c.value ≠ v := by
  simp [filterNotVal, List.mem_filter]

theorem mem_filterSuit {hand : List Card} {s : Suit} {c : Card} :
    c ∈ filterSuit hand s ↔ c ∈ hand ∧ c.suit = s := by
  simp [filterSuit, List.mem_filter]

theorem mem_suits_in_order {hand : List Card} {s : Suit} :
    s ∈ suits_in_order hand ↔ ∃ c ∈ hand, c.suit = s := by
  rw [suits_in_order, mem_dedupFirst, List.mem_map]

theorem filterVal_add_filterNotVal (hand : List Card) (v : Nat) :
    (filterVal hand v).length + (filterNotVal hand v).length = hand.length := by
  induction hand with
  | nil => rfl
  | cons c l ih =>
      simp only [filterVal, filterNotVal, List.filter_cons] at *
      cases hc : (c.value == v) <;> simp [hc] <;> omega

theorem filterVal_length_le_four {hand : List Card} (hnd : hand.Nodup) (v : Nat) :
    (filterVal hand v).length ≤ 4 := by
  have h1 : (filterVal hand v).Nodup := hnd.filter _
  have h2 : ((filterVal hand v).map (fun c => c.suit)).Nodup := by
    refine List.Nodup.map_on ?_ h1
    intro x hx y hy hxy
    have hxv : x.value = v := (mem_filterVal.mp hx).2
    have hyv : y.value = v := (mem_filterVal.mp hy).2
    cases x; cases y
    simp_all
  have h3 := List.Nodup.length_le_card h2
  have h4 : Fintype.card Suit = 4 := rfl
  rw [List.length_map] at h3
  omega

/-! ## Lemmas: the straight window search -/

theorem find_straight_high_none_of_short :
    ∀ (l : List Nat), l.length < 5 → find_straight_high l = none
  | [], _ => rfl
  | [_], _ => rfl
  | [_, _], _ => rfl
  | [_, _, _], _ => rfl
  | [_, _, _, _], _ => rfl
  | _ :: _ :: _ :: _ :: _ :: _, h => by simp [List.length_cons] at h; omega

theorem find_straight_high_mem :
    ∀ (l : List Nat), l.Pairwise (· > ·) → ∀ (hi : Nat),
      find_straight_high l = some hi → 4 ≤ hi ∧ ∀ k, k ≤ 4 → hi - k ∈ l
  | [], _, _, h => by simp [find_straight_high] at h
  | [_], _, _, h => by simp [find_straight_high] at h
  | [_, _], _, _, h => by simp [find_straight_high] at h
  | [_, _, _], _, _, h => by simp [find_straight_high] at h
  | [_, _, _, _], _, _, h => by simp [find_straight_high] at h
  | v0 :: v1 :: v2 :: v3 :: v4 :: rest, hsort, hi, hfind => by
      rw [find_straight_high] at hfind
      have h0 := (List.pairwise_cons.mp hsort).1
      have hs1 := (List.pairwise_cons.mp hsort).2
      have h1 := (List.pairwise_cons.mp hs1).1
      have hs2 := (List.pairwise_cons.mp hs1).2
      have h2 := (List.pairwise_cons.mp hs2).1
      have hs3 := (List.pairwise_cons.mp hs2).2
      have h3 := (List.pairwise_cons.mp hs3).1
      by_cases hw : v0 - v4 = 4
      · rw [if_pos hw] at hfind
        injection hfind with h
        subst h
        have e01 : v0 > v1 := h0 v1 (by simp)
        have e04 : v0 > v4 := h0 v4 (by simp)
        have e12 : v1 > v2 := h1 v2 (by simp)
        have e23 : v2 > v3 := h2 v3 (by simp)
        have e34 : v3 > v4 := h3 v4 (by simp)
        refine ⟨by omega, ?_⟩
        intro k hk
        interval_cases k <;> simp [List.mem_cons] <;> omega
      · rw [if_neg hw] at hfind
        have ihres := find_straight_high_mem (v1 :: v2 :: v3 :: v4 :: rest) hs1 hi hfind
        exact ⟨ihres.1, fun k hk => List.mem_cons_of_mem v0 (ihres.2 k hk)⟩

theorem pick_value_eq_of_exists {hand : List Card} {v : Nat} (h : ∃ c ∈ hand, c.value = v) :
    ∃ c, pick_value hand v = [c] ∧ c ∈ hand ∧ c.value = v := by
  rcases h with ⟨c, hc, hv⟩
  have hsome : (hand.find? (fun c => c.value == v)).isSome := by
    rw [List.find?_isSome]
    exact ⟨c, hc, by simp [hv]⟩
  cases hfind : hand.find? (fun c => c.value == v) with
  | none => rw [hfind] at hsome; simp at hsome
  | some d =>
      refine ⟨d, ?_, List.mem_of_find?_eq_some hfind, by simpa using List.find?_some hfind⟩
      rw [pick_value, hfind]

theorem pick_value_sub {hand : List Card} {v : Nat} {c : Card} (h : c ∈ pick_value hand v) :
    c ∈ hand ∧ c.value = v := by
  rw [pick_value] at h
  cases hfind : hand.find? (fun c => c.value == v) with
  | none => rw [hfind] at h; cases h
  | some d =>
      rw [hfind] at h
      have hcd : c = d := List.mem_singleton.mp h
      subst hcd
      exact ⟨List.mem_of_find?_eq_some hfind, by simpa using List.find?_some hfind⟩

theorem find?_eq_some_of_unique {l : List Card} {p : Card → Bool} {c : Card}
    (hc : c ∈ l) (hp : p c = true) (huniq : ∀ d ∈ l, p d = true → d = c) :
    l.find? p = some c := by
  induction l with
  | nil => cases hc
  | cons a l ih =>
      cases ha : p a with
      | true =>
          have hac : a = c := huniq a (List.mem_cons_self a l) ha
          subst hac
          rw [List.find?_cons_of_pos _ ha]
      | false =>
          rw [List.find?_cons_of_neg _ (by simp [ha])]
          rcases List.mem_cons.mp hc with rfl | hc2
          · rw [ha] at hp; cases hp
          · exact ih hc2 (fun d hd => huniq d (List.mem_cons_of_mem a hd))

theorem find?_desc_earlier :
    ∀ (l : List Nat) (p : Nat → Bool) (v : Nat), l.Pairwise (· > ·) →
      l.find? p = some v → ∀ w ∈ l, v < w → p w = false
  | [], _, _, _, hfind => by simp at hfind
  | a :: l, p, v, hsort, hfind => by
      rw [List.pairwise_cons] at hsort
      intro w hw hvw
      cases ha : p a with
      | true =>
          rw [List.find?_cons_of_pos _ ha] at hfind
          injection hfind with h
          subst h
          rcases List.mem_cons.mp hw with rfl | hw2
          · omega
          · exact absurd (hsort.1 w hw2) (by omega)
      | false =>
          rw [List.find?_cons_of_neg _ (by simp [ha])] at hfind
          rcases List.mem_cons.mp hw with rfl | hw2
          · exact ha
          · exact find?_desc_earlier l p v hsort.2 hfind w hw2 hvw

theorem get_straight_cards_eq_nil {hand : List Card}
    (h : find_straight_high (values_desc hand) = none) : get_straight_cards hand = [] := by
  rw [get_straight_cards, h]

theorem get_straight_cards_nil_of_few {hand : List Card}
    (h : (values_desc hand).length < 5) : get_straight_cards hand = [] :=
  get_straight_cards_eq_nil (find_straight_high_none_of_short _ h)

theorem values_desc_length_le {hand : List Card} {vs : List Nat}
    (hsub : ∀ v ∈ values_desc hand, v ∈ vs) :
    (values_desc hand).length ≤ vs.length :=
  (List.subperm_of_subset (nodup_values_desc hand) hsub).length_le

theorem get_straight_cards_spec {hand : List Card} {hi : Nat}
    (hfind : find_straight_high (values_desc hand) = some hi) :
    4 ≤ hi ∧ ∃ c0 c1 c2 c3 c4, get_straight_cards hand = [c0, c1, c2, c3, c4]
      ∧ (c0 ∈ hand ∧ c0.value = hi) ∧ (c1 ∈ hand ∧ c1.value = hi - 1)
      ∧ (c2 ∈ hand ∧ c2.value = hi - 2) ∧ (c3 ∈ hand ∧ c3.value = hi - 3)
      ∧ (c4 ∈ hand ∧ c4.value = hi - 4) := by
  have hm := find_straight_high_mem _ (values_desc_strict hand) _ hfind
  have hx0 := pick_value_eq_of_exists (mem_values_desc.mp (by simpa using hm.2 0 (by omega)))
  have hx1 := pick_value_eq_of_exists (mem_values_desc.mp (hm.2 1 (by omega)))
  have hx2 := pick_value_eq_of_exists (mem_values_desc.mp (hm.2 2 (by omega)))
  have hx3 := pick_value_eq_of_exists (mem_values_desc.mp (hm.2 3 (by omega)))
  have hx4 := pick_value_eq_of_exists (mem_values_desc.mp (hm.2 4 (by omega)))
  rcases hx0 with ⟨c0, he0, hc0⟩
  rcases hx1 with ⟨c1, he1, hc1⟩
  rcases hx2 with ⟨c2, he2, hc2⟩
  rcases hx3 with ⟨c3, he3, hc3⟩
  rcases hx4 with ⟨c4, he4, hc4⟩
  refine ⟨hm.1, c0, c1, c2, c3, c4, ?_, hc0, hc1, hc2, hc3, hc4⟩
  simp only [get_straight_cards, hfind]
  rw [he0, he1, he2, he3, he4]
  rfl

/-! ## Lemmas: flush detection -/

theorem get_flush_cards_eq_nil {hand : List Card}
    (h : ∀ s : Suit, (filterSuit hand s).length < 5) : get_flush_cards hand = [] := by
  rw [get_flush_cards]
  have hfind : (suits_in_order hand).find?
      (fun s => decide (5 ≤ (filterSuit hand s).length)) = none := by
    rw [List.find?_eq_none]
    intro s _
    simpa using Nat.not_le.mpr (h s)
  rw [hfind]

theorem get_flush_cards_spec {hand : List Card} (hne : get_flush_cards hand ≠ []) :
    ∃ s : Suit, 5 ≤ (filterSuit hand s).length ∧
      get_flush_cards hand = (sortCardsDesc (filterSuit hand s)).take 5 := by
  rw [get_flush_cards] at hne ⊢
  cases hfind : (suits_in_order hand).find?
      (fun s => decide (5 ≤ (filterSuit hand s).length)) with
  | none => rw [hfind] at hne; exact absurd rfl hne
  | some s => exact ⟨s, by simpa using List.find?_some hfind, rfl⟩

theorem get_flush_cards_ne_nil {hand : List Card} {s : Suit}
    (hs : s ∈ suits_in_order hand) (hge : 5 ≤ (filterSuit hand s).length) :
    get_flush_cards hand ≠ [] := by
  rw [get_flush_cards]
  cases hfind : (suits_in_order hand).find?
      (fun s => decide (5 ≤ (filterSuit hand s).length)) with
  | none =>
      have := List.find?_eq_none.mp hfind s hs
      simp at this
      omega
  | some s2 =>
      have hp : 5 ≤ (filterSuit hand s2).length := by simpa using List.find?_some hfind
      show (sortCardsDesc (filterSuit hand s2)).take 5 ≠ []
      intro hnil
      have hlen := congrArg List.length hnil
      rw [List.length_take, length_sortCardsDesc, List.length_nil] at hlen
      omega

theorem not_flush_of_nil {hand : List Card} (h : get_flush_cards hand = []) :
    ∀ s : Suit, (filterSuit hand s).length < 5 := by
  intro s
  by_contra hge
  push_neg at hge
  have hs : s ∈ suits_in_order hand := by
    have hne : filterSuit hand s ≠ [] := by
      intro hnil
      rw [hnil] at hge
      simp at hge
    rcases List.exists_mem_of_ne_nil _ hne with ⟨c, hc⟩
    exact mem_suits_in_order.mpr ⟨c, (mem_filterSuit.mp hc).1, (mem_filterSuit.mp hc).2⟩
  exact get_flush_cards_ne_nil hs hge h

/-! ## Lemmas: n of a kind -/

theorem filterNotVal_sortCardsDesc (hand : List Card) (v : Nat) :
    filterNotVal (sortCardsDesc hand) v = sortCardsDesc (filterNotVal hand v) := by
  rw [filterNotVal, filterNotVal, sortCardsDesc_filter]

theorem get_n_nil_iff {hand : List Card} {n : Nat} (hn : 1 ≤ n) :
    get_n_of_a_kind hand n = [] ↔ ∀ v, (filterVal hand v).length < n := by
  rw [get_n_of_a_kind]
  cases hfind : (values_desc hand).find?
      (fun v => decide (n ≤ (filterVal hand v).length)) with
  | some v =>
      have hp : n ≤ (filterVal hand v).length := by simpa using List.find?_some hfind
      constructor
      · intro h
        exfalso
        have h1 := congrArg List.length h
        rw [List.length_append, List.length_take, List.length_nil] at h1
        omega
      · intro h
        exact absurd hp (Nat.not_le.mpr (h v))
  | none =>
      constructor
      · intro _ v
        by_contra hge
        push_neg at hge
        have hv : v ∈ values_desc hand := by
          have hne : filterVal hand v ≠ [] := by
            intro hnil
            rw [hnil] at hge
            simp at hge
            omega
          rcases List.exists_mem_of_ne_nil _ hne with ⟨c, hc⟩
          exact mem_values_desc.mpr ⟨c, (mem_filterVal.mp hc).1, (mem_filterVal.mp hc).2⟩
        have := List.find?_eq_none.mp hfind v hv
        simp at this
        omega
      · intro _
        rfl

theorem get_n_spec {hand : List Card} {n : Nat} (hn : 1 ≤ n)
    (hne : get_n_of_a_kind hand n ≠ []) :
    ∃ v, n ≤ (filterVal hand v).length ∧
      (∀ w, v < w → (filterVal hand w).length < n) ∧
      get_n_of_a_kind hand n
        = (filterVal hand v).take n ++ (filterNotVal (sortCardsDesc hand) v).take (5 - n) := by
  rw [get_n_of_a_kind] at hne ⊢
  cases hfind : (values_desc hand).find?
      (fun v => decide (n ≤ (filterVal hand v).length)) with
  | none => rw [hfind] at hne; exact absurd rfl hne
  | some v =>
      refine ⟨v, by simpa using List.find?_some hfind, ?_, rfl⟩
      intro w hvw
      by_contra hge
      push_neg at hge
      have hw : w ∈ values_desc hand := by
        have hne2 : filterVal hand w ≠ [] := by
          intro hnil
          rw [hnil] at hge
          simp at hge
          omega
        rcases List.exists_mem_of_ne_nil _ hne2 with ⟨c, hc⟩
        exact mem_values_desc.mpr ⟨c, (mem_filterVal.mp hc).1, (mem_filterVal.mp hc).2⟩
      have := find?_desc_earlier _ _ _ (values_desc_strict hand) hfind w hw hvw
      simp at this
      omega

/-! ## Lemmas: the category dispatch of `evaluate`, branch by branch -/

theorem eval_go_sf {hand : List Card} {c : Card} {rest : List Card}
    (h : sf_cards hand = c :: rest) :
    eval_go hand
      = (if c.value = 14 then HandRank.ROYAL_FLUSH else HandRank.STRAIGHT_FLUSH, c :: rest) := by
  rw [eval_go, h]
  by_cases hc : c.value = 14 <;> simp [hc]

theorem eval_go_four {hand : List Card} (hsf : sf_cards hand = [])
    {fk : List Card} (h4 : get_n_of_a_kind hand 4 = fk) (hne : fk ≠ []) :
    eval_go hand = (HandRank.FOUR_OF_A_KIND, fk) := by
  cases fk with
  | nil => exact absurd rfl hne
  | cons a l => rw [eval_go, hsf, h4]

theorem eval_go_full_house {hand : List Card} (hsf : sf_cards hand = [])
    (h4 : get_n_of_a_kind hand 4 = []) {fh : List Card}
    (hfh : get_full_house hand = fh) (hne : fh ≠ []) :
    eval_go hand = (HandRank.FULL_HOUSE, fh) := by
  cases fh with
  | nil => exact absurd rfl hne
  | cons a l => rw [eval_go, hsf, h4, hfh]

theorem eval_go_flush {hand : List Card} (hsf : sf_cards hand = [])
    (h4 : get_n_of_a_kind hand 4 = []) (hfh : get_full_house hand = [])
    (hne : get_flush_cards hand ≠ []) :
    eval_go hand = (HandRank.FLUSH, (get_flush_cards hand).take 5) := by
  rw [eval_go, hsf, h4, hfh]
  simp only [List.isEmpty_eq_true]
  rw [if_pos]
  simpa using hne

theorem eval_go_straight {hand : List Card} (hsf : sf_cards hand = [])
    (h4 : get_n_of_a_kind hand 4 = []) (hfh : get_full_house hand = [])
    (hfl : get_flush_cards hand = []) {st : List Card}
    (hst : get_straight_cards hand = st) (hne : st ≠ []) :
    eval_go hand = (HandRank.STRAIGHT, st) := by
  cases st with
  | nil => exact absurd rfl hne
  | cons a l =>
      rw [eval_go, hsf, h4, hfh, hfl, hst]
      rfl

theorem eval_go_three {hand : List Card} (hsf : sf_cards hand = [])
    (h4 : get_n_of_a_kind hand 4 = []) (hfh : get_full_house hand = [])
    (hfl : get_flush_cards hand = []) (hst : get_straight_cards hand = [])
    {tk : List Card} (h3 : get_n_of_a_kind hand 3 = tk) (hne : tk ≠ []) :
    eval_go hand = (HandRank.THREE_OF_A_KIND, tk) := by
  cases tk with
  | nil => exact absurd rfl hne
  | cons a l =>
      rw [eval_go, hsf, h4, hfh, hfl, hst, h3]
      rfl

theorem eval_go_two_pair {hand : List Card} (hsf : sf_cards hand = [])
    (h4 : get_n_of_a_kind hand 4 = []) (hfh : get_full_house hand = [])
    (hfl : get_flush_cards hand = []) (hst : get_straight_cards hand = [])
    (h3 : get_n_of_a_kind hand 3 = []) {tp : List Card}
    (htp : get_two_pair hand = tp) (hne : tp ≠ []) :
    eval_go hand = (HandRank.TWO_PAIR, tp) := by
  cases tp with
  | nil => exact absurd rfl hne
  | cons a l =>
      rw [eval_go, hsf, h4, hfh, hfl, hst, h3, htp]
      rfl

theorem eval_go_pair {hand : List Card} (hsf : sf_cards hand = [])
    (h4 : get_n_of_a_kind hand 4 = []) (hfh : get_full_house hand = [])
    (hfl : get_flush_cards hand = []) (hst : get_straight_cards hand = [])
    (h3 : get_n_of_a_kind hand 3 = []) (htp : get_two_pair hand = [])
    {p : List Card} (h2 : get_n_of_a_kind hand 2 = p) (hne : p ≠ []) :
    eval_go hand = (HandRank.PAIR, p) := by
  cases p with
  | nil => exact absurd rfl hne
  | cons a l =>
      rw [eval_go, hsf, h4, hfh, hfl, hst, h3, htp, h2]
      rfl

theorem eval_go_high {hand : List Card} (hsf : sf_cards hand = [])
    (h4 : get_n_of_a_kind hand 4 = []) (hfh : get_full_house hand = [])
    (hfl : get_flush_cards hand = []) (hst : get_straight_cards hand = [])
    (h3 : get_n_of_a_kind hand 3 = []) (htp : get_two_pair hand = [])
    (h2 : get_n_of_a_kind hand 2 = []) :
    eval_go hand = (HandRank.HIGH_CARD, (sortCardsDesc hand).take 5) := by
  rw [eval_go, hsf, h4, hfh, hfl, hst, h3, htp, h2]
  rfl

theorem sf_cards_of_flush_nil {hand : List Card} (h : get_flush_cards hand = []) :
    sf_cards hand = [] := by
  rw [sf_cards, h]
  rfl

/-! ## Preflop strength computation lemmas -/

theorem sortCardsDesc_pair_eq {c1 c2 : Card} (h : c2.value ≤ c1.value) :
    sortCardsDesc [c1, c2] = [c1, c2] := by
  show insertDesc c1 (insertDesc c2 []) = [c1, c2]
  rw [insertDesc, insertDesc, if_pos h]

theorem sortCardsDesc_pair_swap {c1 c2 : Card} (h : ¬ c2.value ≤ c1.value) :
    sortCardsDesc [c1, c2] = [c2, c1] := by
  show insertDesc c1 (insertDesc c2 []) = [c2, c1]
  rw [insertDesc, insertDesc, if_neg h]
  rfl

theorem preflop_pair_eq (c1 c2 : Card) (hpair : c1.value = c2.value) :
    calculate_preflop_strength [c1, c2] = some (1/2 + ((c1.value : ℚ) - 2) / 24) := by
  rw [calculate_preflop_strength, if_neg (by simp), sortCardsDesc_pair_eq (le_of_eq hpair.symm)]
  show some (preflop_score c1 c2) = _
  rw [preflop_score, if_pos hpair]

/-! ## Claim theorems: constructor validation, hand-size error, preflop scores -/

/-- C9: the `Card` constructor validates its rank: any integer value below 2
or above 14 raises `ValueError` (modelled as `none`); any value in 2..14
constructs a card carrying exactly that value and suit. -/
theorem card_constructor_validates (v : Int) (s : Suit) :
    ((v < 2 ∨ 14 < v) → mkCard v s = none) ∧
    (2 ≤ v ∧ v ≤ 14 → ∃ c, mkCard v s = some c ∧ (c.value : Int) = v ∧ c.suit = s) := by
  constructor
  · intro h
    rw [mkCard, if_neg]
    rintro ⟨h1, h2⟩
    rcases h with h | h <;> omega
  · rintro ⟨h1, h2⟩
    refine ⟨⟨v.toNat, s⟩, by rw [mkCard, if_pos ⟨h1, h2⟩], ?_, rfl⟩
    simp only []
    omega

/-- Witness for C9 at the concrete ranks 1 (rejected), 15 (rejected) and
7 (accepted with the fields preserved). -/
theorem card_constructor_validates_witness :
    mkCard 1 Suit.HEARTS = none ∧ mkCard 15 Suit.HEARTS = none ∧
    ∃ c, mkCard 7 Suit.HEARTS = some c ∧ (c.value : Int) = 7 ∧ c.suit = Suit.HEARTS :=
  ⟨(card_constructor_validates 1 Suit.HEARTS).1 (by norm_num),
   (card_constructor_validates 15 Suit.HEARTS).1 (by norm_num),
   (card_constructor_validates 7 Suit.HEARTS).2 (by norm_num)⟩

/-- C3: `evaluate` fails (raises, modelled as `none`) exactly on hands of
fewer than 5 cards: below 5 it produces no partial result, and at 5 or more
it never raises this error. -/
theorem evaluate_fails_iff_undersized (hand : List Card) :
    evaluate hand = none ↔ hand.length < 5 := by
  rw [evaluate]
  by_cases h : hand.length < 5
  · rw [if_pos h]
    simp [h]
  · rw [if_neg h]
    constructor
    · intro hc
      simp at hc
    · intro hc
      exact absurd hc h

/-- C8: a pocket pair of rank `r` scores exactly `0.5 + (r - 2) / 24`
preflop. -/
theorem preflop_pocket_pair (c1 c2 : Card) (hpair : c1.value = c2.value) :
    calculate_preflop_strength [c1, c2] = some (1/2 + ((c1.value : ℚ) - 2) / 24) :=
  preflop_pair_eq c1 c2 hpair

/-- Witness for C8: two Aces score exactly 1. -/
theorem preflop_pocket_pair_witness :
    calculate_preflop_strength [⟨14, Suit.HEARTS⟩, ⟨14, Suit.SPADES⟩] = some 1 := by
  rw [preflop_pocket_pair ⟨14, Suit.HEARTS⟩ ⟨14, Suit.SPADES⟩ rfl]
  norm_num

/-- C10: suited Ace-King scores preflop base 0.8 plus the suited, connected
and high-low-card bonuses, clamped from 1.1 down to exactly 1.0 — the same
score as a pair of Aces, so the preflop score cannot tell these two
holdings apart. -/
theorem aks_preflop_equals_pocket_aces (s s1 s2 : Suit) :
    calculate_preflop_strength [⟨14, s⟩, ⟨13, s⟩] = some 1 ∧
    calculate_preflop_strength [⟨14, s1⟩, ⟨14, s2⟩] = some 1 := by
  constructor
  · rw [calculate_preflop_strength, if_neg (by simp),
      sortCardsDesc_pair_eq (by norm_num)]
    show some (preflop_score ⟨14, s⟩ ⟨13, s⟩) = some 1
    rw [preflop_score]
    norm_num
  · rw [preflop_pair_eq ⟨14, s1⟩ ⟨14, s2⟩ rfl]
    norm_num

/-! ## Claim: the wheel straight is never detected -/

theorem nodup_of_pairwise_gt {l : List Nat} (h : l.Pairwise (· > ·)) : l.Nodup :=
  h.imp (fun hab => Nat.ne_of_gt hab)

theorem values_desc_eq_of {hand : List Card} {vs : List Nat}
    (hvs : vs.Pairwise (· > ·)) (hmem : ∀ v, v ∈ values_desc hand ↔ v ∈ vs) :
    values_desc hand = vs := by
  have hperm : (values_desc hand).Perm vs :=
    (List.perm_ext_iff_of_nodup (nodup_values_desc hand) (nodup_of_pairwise_gt hvs)).mpr hmem
  refine List.eq_of_perm_of_sorted (r := fun a b => a ≥ b) hperm ?_ ?_
  · exact sortValsDesc_sorted (distinct_values hand)
  · exact hvs.imp (fun hab => le_of_lt hab)

/-- C6: the wheel (A-2-3-4-5) is never detected as a straight: on any hand
whose distinct ranks are exactly {14, 5, 4, 3, 2} and which holds no five
cards of one suit, `evaluate` never returns STRAIGHT or STRAIGHT_FLUSH,
because the rank pattern is not consecutive when the Ace is only 14. -/
theorem wheel_not_detected (hand : List Card)
    (hsub : ∀ c ∈ hand, c.value = 14 ∨ c.value = 5 ∨ c.value = 4 ∨ c.value = 3 ∨ c.value = 2)
    (h14 : ∃ c ∈ hand, c.value = 14) (hv5 : ∃ c ∈ hand, c.value = 5)
    (hv4 : ∃ c ∈ hand, c.value = 4) (hv3 : ∃ c ∈ hand, c.value = 3)
    (hv2 : ∃ c ∈ hand, c.value = 2)
    (hnoflush : ∀ s : Suit, (filterSuit hand s).length < 5) :
    ∀ r, evaluate hand = some r → r.1 ≠ HandRank.STRAIGHT ∧ r.1 ≠ HandRank.STRAIGHT_FLUSH := by
  intro r hr
  have hvals : values_desc hand = [14, 5, 4, 3, 2] := by
    refine values_desc_eq_of (by decide) ?_
    intro v
    rw [mem_values_desc]
    constructor
    · rintro ⟨c, hc, rfl⟩
      rcases hsub c hc with h | h | h | h | h <;> simp [h]
    · intro hv
      simp only [List.mem_cons, List.not_mem_nil, or_false] at hv
      rcases hv with rfl | rfl | rfl | rfl | rfl
      · exact h14
      · exact hv5
      · exact hv4
      · exact hv3
      · exact hv2
  have hfl : get_flush_cards hand = [] := get_flush_cards_eq_nil hnoflush
  have hst : get_straight_cards hand = [] := by
    apply get_straight_cards_eq_nil
    rw [hvals]
    rfl
  have hsf : sf_cards hand = [] := sf_cards_of_flush_nil hfl
  rw [evaluate] at hr
  split at hr
  · cases hr
  · injection hr with hr
    subst hr
    by_cases h4 : get_n_of_a_kind hand 4 = []
    · by_cases hfh : get_full_house hand = []
      · by_cases h3 : get_n_of_a_kind hand 3 = []
        · by_cases htp : get_two_pair hand = []
          · by_cases h2 : get_n_of_a_kind hand 2 = []
            · rw [eval_go_high hsf h4 hfh hfl hst h3 htp h2]
              exact ⟨by simp, by simp⟩
            · rw [eval_go_pair hsf h4 hfh hfl hst h3 htp rfl h2]
              exact ⟨by simp, by simp⟩
          · rw [eval_go_two_pair hsf h4 hfh hfl hst h3 rfl htp]
            exact ⟨by simp, by simp⟩
        · rw [eval_go_three hsf h4 hfh hfl hst rfl h3]
          exact ⟨by simp, by simp⟩
      · rw [eval_go_full_house hsf h4 rfl hfh]
        exact ⟨by simp, by simp⟩
    · rw [eval_go_four hsf rfl h4]
      exact ⟨by simp, by simp⟩

/-- Witness for C6: the concrete five-card wheel with mixed suits is scored
HIGH_CARD, not STRAIGHT. -/
theorem wheel_not_detected_witness :
    HandRank.HIGH_CARD ≠ HandRank.STRAIGHT ∧ HandRank.HIGH_CARD ≠ HandRank.STRAIGHT_FLUSH :=
  wheel_not_detected
    [⟨14, Suit.HEARTS⟩, ⟨5, Suit.DIAMONDS⟩, ⟨4, Suit.CLUBS⟩, ⟨3, Suit.SPADES⟩, ⟨2, Suit.HEARTS⟩]
    (by decide) (by decide) (by decide) (by decide) (by decide) (by decide) (by decide)
    (HandRank.HIGH_CARD,
      [⟨14, Suit.HEARTS⟩, ⟨5, Suit.DIAMONDS⟩, ⟨4, Suit.CLUBS⟩, ⟨3, Suit.SPADES⟩, ⟨2, Suit.HEARTS⟩])
    (by decide)

/-! ## Claim: straight-draw detection -/

theorem draw_step_le (strength : ℚ) (d : String × Nat) : strength ≤ draw_step strength d := by
  rw [draw_step]
  split
  · exact le_max_left _ _
  · split
    · exact le_max_left _ _
    · split
      · exact le_max_left _ _
      · exact le_refl _

theorem foldl_draw_step_mono (l : List (String × Nat)) (acc : ℚ) :
    acc ≤ l.foldl draw_step acc := by
  induction l generalizing acc with
  | nil => exact le_refl _
  | cons d l ih => exact le_trans (draw_step_le acc d) (ih _)

theorem foldl_draw_step_ge_straight {l : List (String × Nat)} {o : Nat} (acc : ℚ)
    (hmem : ("straight_draw", o) ∈ l) :
    (if 8 ≤ o then (35 : ℚ)/100 else 25/100) ≤ l.foldl draw_step acc := by
  induction l generalizing acc with
  | nil => cases hmem
  | cons d l ih =>
      rcases List.mem_cons.mp hmem with rfl | hmem2
      · refine le_trans ?_ (foldl_draw_step_mono l _)
        by_cases ho : 8 ≤ o
        · rw [if_pos ho, draw_step]
          rw [if_neg (by simp), if_pos rfl, if_pos ho]
          exact le_max_right _ _
        · rw [if_neg ho, draw_step]
          rw [if_neg (by simp), if_pos rfl, if_neg ho]
          exact le_max_right _ _
      · exact ih _ hmem2

theorem straight_draw_mem_identify {cards : List Card}
    (hlen : 4 ≤ (vals_asc cards).length) (hsum : ((gaps_of cards).take 3).sum = 3) :
    ("straight_draw", 8) ∈ identify_draws cards := by
  simp only [identify_draws]
  rw [if_pos (show 4 ≤ (vals_asc cards).length ∧ ((gaps_of cards).take 3).sum = 3 from
    ⟨hlen, hsum⟩)]
  exact List.mem_append_right _ (by simp)

theorem gutshot_mem_identify {cards : List Card}
    (hlen : 4 ≤ (vals_asc cards).length) (hsum : ((gaps_of cards).take 3).sum = 4) :
    ("straight_draw", 4) ∈ identify_draws cards := by
  simp only [identify_draws]
  rw [if_neg (show ¬ (4 ≤ (vals_asc cards).length ∧ ((gaps_of cards).take 3).sum = 3) from
      by rintro ⟨-, h⟩; omega),
    if_pos (show 4 ≤ (vals_asc cards).length ∧ ((gaps_of cards).take 3).sum = 4 from
      ⟨hlen, hsum⟩)]
  exact List.mem_append_right _ (by simp)

/-- C7 (amended): the detector only examines the three gaps between the four
LOWEST distinct ranks.  When those first three gaps sum to 3, an open-ended
straight draw (8 outs) is recorded and the drawing strength is at least
0.35; when they sum to 4, a gutshot (4 outs) is recorded and the drawing
strength is at least 0.25. -/
theorem draw_detection_first_window (hole shared : List Card)
    (hsh1 : 1 ≤ shared.length) (hsh4 : shared.length ≤ 4)
    (hlen : 4 ≤ (vals_asc (hole ++ shared)).length) :
    (((gaps_of (hole ++ shared)).take 3).sum = 3 →
      ("straight_draw", 8) ∈ identify_draws (hole ++ shared) ∧
      35/100 ≤ calculate_drawing_strength hole shared) ∧
    (((gaps_of (hole ++ shared)).take 3).sum = 4 →
      ("straight_draw", 4) ∈ identify_draws (hole ++ shared) ∧
      25/100 ≤ calculate_drawing_strength hole shared) := by
  constructor
  · intro hsum
    have hmem := straight_draw_mem_identify hlen hsum
    refine ⟨hmem, ?_⟩
    rw [calculate_drawing_strength, if_neg (by omega)]
    have hb := foldl_draw_step_ge_straight 0 hmem
    rw [if_pos (by norm_num)] at hb
    exact hb
  · intro hsum
    have hmem := gutshot_mem_identify hlen hsum
    refine ⟨hmem, ?_⟩
    rw [calculate_drawing_strength, if_neg (by omega)]
    have hb := foldl_draw_step_ge_straight 0 hmem
    rw [if_neg (by norm_num)] at hb
    exact hb

/-- Witness for C7 (amended), at hole 2-3 with shared 4, 5, K: the ascending
distinct ranks are 2,3,4,5,13, whose first three gaps sum to 3, and the
drawing strength is at least 0.35. -/
theorem draw_detection_first_window_witness :
    ("straight_draw", 8) ∈ identify_draws
      ([⟨2, Suit.HEARTS⟩, ⟨3, Suit.DIAMONDS⟩] ++ [⟨4, Suit.SPADES⟩, ⟨5, Suit.CLUBS⟩, ⟨13, Suit.DIAMONDS⟩]) ∧
    35/100 ≤ calculate_drawing_strength [⟨2, Suit.HEARTS⟩, ⟨3, Suit.DIAMONDS⟩]
      [⟨4, Suit.SPADES⟩, ⟨5, Suit.CLUBS⟩, ⟨13, Suit.DIAMONDS⟩] :=
  (draw_detection_first_window
      [⟨2, Suit.HEARTS⟩, ⟨3, Suit.DIAMONDS⟩]
      [⟨4, Suit.SPADES⟩, ⟨5, Suit.CLUBS⟩, ⟨13, Suit.DIAMONDS⟩]
      (by decide) (by decide) (by decide)).1 (by decide)

/-- C7 counterexample: hole 9,10 with shared J,Q,2.  The sorted distinct
ranks 2,9,10,11,12 contain three consecutive gaps summing to 3 (the gap
list is [7,1,1,1], whose last three sum to 3), yet the detector looks only
at the first three gaps, records no draw at all, and the drawing strength
is 0 rather than at least 0.35. -/
theorem draw_detection_misses_high_window :
    gaps_of ([⟨9, Suit.HEARTS⟩, ⟨10, Suit.DIAMONDS⟩]
      ++ [⟨11, Suit.SPADES⟩, ⟨12, Suit.CLUBS⟩, ⟨2, Suit.DIAMONDS⟩]) = [7, 1, 1, 1] ∧
    identify_draws ([⟨9, Suit.HEARTS⟩, ⟨10, Suit.DIAMONDS⟩]
      ++ [⟨11, Suit.SPADES⟩, ⟨12, Suit.CLUBS⟩, ⟨2, Suit.DIAMONDS⟩]) = [] ∧
    calculate_drawing_strength [⟨9, Suit.HEARTS⟩, ⟨10, Suit.DIAMONDS⟩]
      [⟨11, Suit.SPADES⟩, ⟨12, Suit.CLUBS⟩, ⟨2, Suit.DIAMONDS⟩] = 0 ∧
    ¬ (35/100 ≤ calculate_drawing_strength [⟨9, Suit.HEARTS⟩, ⟨10, Suit.DIAMONDS⟩]
      [⟨11, Suit.SPADES⟩, ⟨12, Suit.CLUBS⟩, ⟨2, Suit.DIAMONDS⟩]) := by
  have hid : identify_draws ([⟨9, Suit.HEARTS⟩, ⟨10, Suit.DIAMONDS⟩]
      ++ [⟨11, Suit.SPADES⟩, ⟨12, Suit.CLUBS⟩, ⟨2, Suit.DIAMONDS⟩]) = [] := by decide
  have hstr : calculate_drawing_strength [⟨9, Suit.HEARTS⟩, ⟨10, Suit.DIAMONDS⟩]
      [⟨11, Suit.SPADES⟩, ⟨12, Suit.CLUBS⟩, ⟨2, Suit.DIAMONDS⟩] = 0 := by
    rw [calculate_drawing_strength, if_neg (by norm_num), hid]
    rfl
  refine ⟨by decide, hid, hstr, ?_⟩
  rw [hstr]
  norm_num

/-! ## Claim: quality-adjustment tie-break monotonicity -/

theorem head_quality_mono {a b : List Card}
    (hha : ∀ c ∈ a, 2 ≤ c.value)
    (hlex : lexLtVals (b.map (fun c => c.value)) (a.map (fun c => c.value)) = true) :
    (((b.getD 0 default).value : ℚ) - 2) / 12 ≤ (((a.getD 0 default).value : ℚ) - 2) / 12 := by
  cases a with
  | nil =>
      cases b with
      | nil => simp [lexLtVals] at hlex
      | cons b0 bs => simp [lexLtVals] at hlex
  | cons a0 as =>
      cases b with
      | nil =>
          have h2 : (2 : ℚ) ≤ (a0.value : ℚ) := by exact_mod_cast hha a0 (by simp)
          simp only [List.getD_nil, List.getD_cons_zero]
          have hd : ((default : Card).value : ℚ) = 2 := by norm_num [default]
          rw [hd]
          linarith
      | cons b0 bs =>
          simp only [List.map_cons, lexLtVals] at hlex
          simp only [List.getD_cons_zero]
          by_cases hlt : b0.value < a0.value
          · have hle : (b0.value : ℚ) ≤ (a0.value : ℚ) := by exact_mod_cast le_of_lt hlt
            linarith
          · rw [if_neg hlt] at hlex
            by_cases hgt : a0.value < b0.value
            · rw [if_pos hgt] at hlex
              cases hlex
            · have heq : a0.value = b0.value := by omega
              rw [heq]

/-- C5 (amended): within every category OTHER than Two Pair, a best-5
sequence that is lexicographically greater by rank receives a
greater-or-equal quality adjustment (for High Card and Pair the adjustment
follows the top card; from Three of a Kind upwards it is constantly 1).
For Two Pair the adjustment follows the SUM of the two pair ranks and can
decrease while the lexicographic order increases. -/
theorem quality_adjustment_monotone (hr : HandRank) (a b : List Card)
    (hha : ∀ c ∈ a, 2 ≤ c.value ∧ c.value ≤ 14)
    (hhb : ∀ c ∈ b, 2 ≤ c.value ∧ c.value ≤ 14)
    (hnr : hr ≠ HandRank.TWO_PAIR)
    (hlex : lexLtVals (b.map (fun c => c.value)) (a.map (fun c => c.value)) = true) :
    calculate_quality_adjustment hr b ≤ calculate_quality_adjustment hr a := by
  have hmono := head_quality_mono (fun c hc => (hha c hc).1) hlex
  cases hr with
  | HIGH_CARD => exact hmono
  | PAIR => exact hmono
  | TWO_PAIR => exact absurd rfl hnr
  | THREE_OF_A_KIND => exact le_refl _
  | STRAIGHT => exact le_refl _
  | FLUSH => exact le_refl _
  | FULL_HOUSE => exact le_refl _
  | FOUR_OF_A_KIND => exact le_refl _
  | STRAIGHT_FLUSH => exact le_refl _
  | ROYAL_FLUSH => exact le_refl _

/-- Witness for C5 (amended): a King-high best five scores no more than an
Ace-high best five within HIGH_CARD. -/
theorem quality_adjustment_monotone_witness :
    calculate_quality_adjustment HandRank.HIGH_CARD
        [⟨13, Suit.HEARTS⟩, ⟨9, Suit.DIAMONDS⟩, ⟨7, Suit.CLUBS⟩, ⟨4, Suit.SPADES⟩, ⟨2, Suit.HEARTS⟩]
      ≤ calculate_quality_adjustment HandRank.HIGH_CARD
        [⟨14, Suit.HEARTS⟩, ⟨9, Suit.DIAMONDS⟩, ⟨7, Suit.CLUBS⟩, ⟨4, Suit.SPADES⟩, ⟨2, Suit.HEARTS⟩] :=
  quality_adjustment_monotone HandRank.HIGH_CARD
    ([⟨14, Suit.HEARTS⟩, ⟨9, Suit.DIAMONDS⟩, ⟨7, Suit.CLUBS⟩, ⟨4, Suit.SPADES⟩,
      ⟨2, Suit.HEARTS⟩] : List Card)
    ([⟨13, Suit.HEARTS⟩, ⟨9, Suit.DIAMONDS⟩, ⟨7, Suit.CLUBS⟩, ⟨4, Suit.SPADES⟩,
      ⟨2, Suit.HEARTS⟩] : List Card)
    (by decide) (by decide) (by decide) (by decide)

/-- C5 counterexample: in TWO_PAIR, the best five [A,A,3,3,2] is
lexicographically greater by rank than [K,K,Q,Q,2], yet its quality
adjustment is strictly smaller: (12+1)/24 = 13/24 < 21/24 = (11+10)/24. -/
theorem quality_adjustment_two_pair_not_monotone :
    lexLtVals
        (([⟨13, Suit.HEARTS⟩, ⟨13, Suit.DIAMONDS⟩, ⟨12, Suit.HEARTS⟩, ⟨12, Suit.DIAMONDS⟩,
          ⟨2, Suit.SPADES⟩] : List Card).map (fun c => c.value))
        (([⟨14, Suit.HEARTS⟩, ⟨14, Suit.DIAMONDS⟩, ⟨3, Suit.HEARTS⟩, ⟨3, Suit.DIAMONDS⟩,
          ⟨2, Suit.SPADES⟩] : List Card).map (fun c => c.value)) = true ∧
    calculate_quality_adjustment HandRank.TWO_PAIR
        [⟨14, Suit.HEARTS⟩, ⟨14, Suit.DIAMONDS⟩, ⟨3, Suit.HEARTS⟩, ⟨3, Suit.DIAMONDS⟩,
          ⟨2, Suit.SPADES⟩]
      < calculate_quality_adjustment HandRank.TWO_PAIR
        [⟨13, Suit.HEARTS⟩, ⟨13, Suit.DIAMONDS⟩, ⟨12, Suit.HEARTS⟩, ⟨12, Suit.DIAMONDS⟩,
          ⟨2, Suit.SPADES⟩] := by
  refine ⟨by decide, ?_⟩
  show ((((14 : ℚ)) - 2) + ((3 : ℚ) - 2)) / 24 < (((13 : ℚ) - 2) + ((12 : ℚ) - 2)) / 24
  norm_num

/-! ## Lemmas: shapes of the category results (length 5, drawn from the hand) -/

theorem kickers_length (hand : List Card) (v k : Nat) :
    ((filterNotVal (sortCardsDesc hand) v).take k).length
      = min k (hand.length - (filterVal hand v).length) := by
  rw [List.length_take, filterNotVal_sortCardsDesc, length_sortCardsDesc]
  have h2 := filterVal_add_filterNotVal hand v
  omega

theorem kickers_mem {hand : List Card} {v k : Nat} {c : Card}
    (hc : c ∈ (filterNotVal (sortCardsDesc hand) v).take k) : c ∈ hand ∧ c.value ≠ v := by
  have hmem := (List.take_sublist _ _).subset hc
  rw [mem_filterNotVal, mem_sortCardsDesc] at hmem
  exact hmem

theorem kickers_sorted (hand : List Card) (v k : Nat) :
    ((filterNotVal (sortCardsDesc hand) v).take k).Pairwise (fun a b => b.value ≤ a.value) := by
  refine List.Pairwise.sublist (List.take_sublist _ _) ?_
  rw [filterNotVal]
  exact (sortCardsDesc_sorted hand).filter _

theorem get_n_subset {hand : List Card} {n : Nat} :
    ∀ c ∈ get_n_of_a_kind hand n, c ∈ hand := by
  intro c hc
  rw [get_n_of_a_kind] at hc
  cases hfind : (values_desc hand).find?
      (fun v => decide (n ≤ (filterVal hand v).length)) with
  | none => rw [hfind] at hc; cases hc
  | some v =>
      rw [hfind] at hc
      rcases List.mem_append.mp hc with h | h
      · exact (mem_filterVal.mp ((List.take_sublist _ _).subset h)).1
      · exact (kickers_mem h).1

theorem get_n_len5 {hand : List Card} {n : Nat} (hn : 1 ≤ n) (hn5 : n ≤ 5)
    (h5 : 5 ≤ hand.length)
    (hmax : ∀ v, (filterVal hand v).length ≤ n)
    (hne : get_n_of_a_kind hand n ≠ []) :
    (get_n_of_a_kind hand n).length = 5 ∧ ∀ c ∈ get_n_of_a_kind hand n, c ∈ hand := by
  refine ⟨?_, get_n_subset⟩
  rcases get_n_spec hn hne with ⟨v, hv, -, heq⟩
  rw [heq, List.length_append, List.length_take, kickers_length]
  have := hmax v
  omega

theorem flush_len5 {hand : List Card} (hne : get_flush_cards hand ≠ []) :
    (get_flush_cards hand).length = 5 ∧ ∀ c ∈ get_flush_cards hand, c ∈ hand := by
  rcases get_flush_cards_spec hne with ⟨s, hlen, heq⟩
  rw [heq]
  constructor
  · rw [List.length_take, length_sortCardsDesc]
    omega
  · intro c hc
    have hmem := (List.take_sublist _ _).subset hc
    rw [mem_sortCardsDesc] at hmem
    exact (mem_filterSuit.mp hmem).1

theorem get_straight_cards_ne_nil_find {hand : List Card}
    (hne : get_straight_cards hand ≠ []) :
    ∃ hi, find_straight_high (values_desc hand) = some hi := by
  rw [get_straight_cards] at hne
  cases hfind : find_straight_high (values_desc hand) with
  | none => rw [hfind] at hne; exact absurd rfl hne
  | some hi => exact ⟨hi, rfl⟩

theorem straight_len5 {hand : List Card} (hne : get_straight_cards hand ≠ []) :
    (get_straight_cards hand).length = 5 ∧ ∀ c ∈ get_straight_cards hand, c ∈ hand := by
  rcases get_straight_cards_ne_nil_find hne with ⟨hi, hfind⟩
  rcases get_straight_cards_spec hfind with ⟨hhi, c0, c1, c2, c3, c4, heq, h0, h1, h2, h3, h4⟩
  rw [heq]
  refine ⟨rfl, ?_⟩
  intro c hc
  simp only [List.mem_cons, List.not_mem_nil, or_false] at hc
  rcases hc with rfl | rfl | rfl | rfl | rfl
  exacts [h0.1, h1.1, h2.1, h3.1, h4.1]

theorem sf_cards_spec {hand : List Card} {l : List Card} (h : sf_cards hand = l)
    (hne : l ≠ []) :
    get_flush_cards hand ≠ [] ∧ get_straight_cards (get_flush_cards hand) = l := by
  rw [sf_cards] at h
  by_cases hfl : (get_flush_cards hand).isEmpty
  · rw [if_pos hfl] at h
    exact absurd h.symm hne
  · rw [if_neg hfl] at h
    refine ⟨?_, h⟩
    rw [Bool.not_eq_true, List.isEmpty_eq_false] at hfl
    exact hfl

theorem get_full_house_eq {hand : List Card} {t : Card} {ts : List Card}
    (h3 : get_n_of_a_kind hand 3 = t :: ts) {p : Card} {ps : List Card}
    (h2 : get_n_of_a_kind (filterNotVal hand t.value) 2 = p :: ps) :
    get_full_house hand = ((t :: ts).take 3) ++ ((p :: ps).take 2) := by
  rw [get_full_house, h3]
  simp only [h2]

theorem get_full_house_nil_of_three_nil {hand : List Card}
    (h3 : get_n_of_a_kind hand 3 = []) : get_full_house hand = [] := by
  rw [get_full_house, h3]

theorem get_full_house_nil_of_pair_nil {hand : List Card} {t : Card} {ts : List Card}
    (h3 : get_n_of_a_kind hand 3 = t :: ts)
    (h2 : get_n_of_a_kind (filterNotVal hand t.value) 2 = []) :
    get_full_house hand = [] := by
  rw [get_full_house, h3]
  simp only [h2]

theorem get_n_length_ge {hand : List Card} {n : Nat} (hn : 1 ≤ n)
    (hne : get_n_of_a_kind hand n ≠ []) : n ≤ (get_n_of_a_kind hand n).length := by
  rcases get_n_spec hn hne with ⟨v, hv, -, heq⟩
  rw [heq, List.length_append, List.length_take]
  omega

theorem full_house_len5 {hand : List Card} (hne : get_full_house hand ≠ []) :
    (get_full_house hand).length = 5 ∧ ∀ c ∈ get_full_house hand, c ∈ hand := by
  cases h3 : get_n_of_a_kind hand 3 with
  | nil => exact absurd (get_full_house_nil_of_three_nil h3) hne
  | cons t ts =>
      cases h2 : get_n_of_a_kind (filterNotVal hand t.value) 2 with
      | nil => exact absurd (get_full_house_nil_of_pair_nil h3 h2) hne
      | cons p ps =>
          rw [get_full_house_eq h3 h2]
          have hl3 : 3 ≤ (t :: ts).length := by
            rw [← h3]
            exact get_n_length_ge (by norm_num) (by rw [h3]; simp)
          have hl2 : 2 ≤ (p :: ps).length := by
            rw [← h2]
            exact get_n_length_ge (by norm_num) (by rw [h2]; simp)
          constructor
          · rw [List.length_append, List.length_take, List.length_take]
            omega
          · intro c hc
            rcases List.mem_append.mp hc with h | h
            · have := (List.take_sublist _ _).subset h
              rw [← h3] at this
              exact get_n_subset c this
            · have := (List.take_sublist _ _).subset h
              rw [← h2] at this
              exact (mem_filterNotVal.mp (get_n_subset c this)).1

theorem length_filter_not_two (hand : List Card) (v w : Nat) :
    hand.length ≤ (hand.filter (fun c => !(c.value == v) && !(c.value == w))).length
      + (filterVal hand v).length + (filterVal hand w).length := by
  induction hand with
  | nil => simp
  | cons c l ih =>
      simp only [filterVal, List.filter_cons] at *
      cases hcv : (c.value == v) <;> cases hcw : (c.value == w) <;>
        simp [hcv, hcw] <;> omega

/-! ## Lemmas: the two-pair accumulation loop -/

theorem two_pair_loop_second {hand : List Card} {vA : Nat}
    (hmax : ∀ v, (filterVal hand v).length ≤ 2)
    (h5 : 5 ≤ hand.length) (hA : (filterVal hand vA).length = 2) :
    ∀ (values : List Nat), (∀ w ∈ values, w < vA) →
      ∀ r, two_pair_loop hand values (filterVal hand vA) = r → r ≠ [] →
      ∃ vB k, vB ∈ values ∧ vB < vA ∧ (filterVal hand vB).length = 2 ∧
        r = filterVal hand vA ++ filterVal hand vB ++ [k] ∧
        k ∈ hand ∧ k.value ≠ vA ∧ k.value ≠ vB := by
  intro values
  induction values with
  | nil =>
      intro _ r hr hne
      rw [two_pair_loop] at hr
      exact absurd hr.symm hne
  | cons v vs ih =>
      intro hlt r hr hne
      simp only [two_pair_loop] at hr
      by_cases hv2 : 2 ≤ (filterVal hand v).length
      · rw [if_pos hv2] at hr
        have hvlen : (filterVal hand v).length = 2 := le_antisymm (hmax v) hv2
        have htake : (filterVal hand v).take 2 = filterVal hand v :=
          List.take_of_length_le (le_of_eq hvlen)
        rw [htake] at hr
        have hplen : (filterVal hand vA ++ filterVal hand v).length = 4 := by
          rw [List.length_append, hA, hvlen]
        rw [if_pos (by omega)] at hr
        have htake4 : (filterVal hand vA ++ filterVal hand v).take 4
            = filterVal hand vA ++ filterVal hand v :=
          List.take_of_length_le (le_of_eq hplen)
        rw [htake4] at hr
        rcases List.length_eq_two.mp hA with ⟨a1, a2, hA2⟩
        rcases List.length_eq_two.mp hvlen with ⟨b1, b2, hv2eq⟩
        have ha1 : a1 ∈ filterVal hand vA := by rw [hA2]; simp
        have hb1 : b1 ∈ filterVal hand v := by rw [hv2eq]; simp
        have hg0 : ((filterVal hand vA ++ filterVal hand v).getD 0 default) = a1 := by
          rw [hA2]
          rfl
        have hg2 : ((filterVal hand vA ++ filterVal hand v).getD 2 default) = b1 := by
          rw [hA2, hv2eq]
          rfl
        rw [two_pair_kicker, hg0, hg2, (mem_filterVal.mp ha1).2, (mem_filterVal.mp hb1).2] at hr
        have hexists : ∃ x ∈ sortCardsDesc hand,
            (fun c => !(c.value == vA) && !(c.value == v)) x = true := by
          have hle := length_filter_not_two hand vA v
          have hpos : 0 < (hand.filter (fun c => !(c.value == vA) && !(c.value == v))).length := by
            omega
          rcases List.exists_mem_of_ne_nil _ (List.length_pos.mp hpos) with ⟨x, hx⟩
          rw [List.mem_filter] at hx
          exact ⟨x, mem_sortCardsDesc.mpr hx.1, hx.2⟩
        cases hfind : (sortCardsDesc hand).find? (fun c => !(c.value == vA) && !(c.value == v)) with
        | none =>
            have hsome := List.find?_isSome.mpr hexists
            rw [hfind] at hsome
            simp at hsome
        | some k =>
            rw [hfind] at hr
            have hkmem : k ∈ hand := mem_sortCardsDesc.mp (List.mem_of_find?_eq_some hfind)
            have hkp := List.find?_some hfind
            simp only [Bool.and_eq_true, Bool.not_eq_true', beq_eq_false_iff_ne] at hkp
            exact ⟨v, k, List.mem_cons_self v vs, hlt v (List.mem_cons_self v vs), hvlen,
              hr.symm, hkmem, hkp.1, hkp.2⟩
      · rw [if_neg hv2] at hr
        rcases ih (fun w hw => hlt w (List.mem_cons_of_mem v hw)) r hr hne with
          ⟨vB, k, hm, hrest⟩
        exact ⟨vB, k, List.mem_cons_of_mem v hm, hrest⟩

theorem two_pair_loop_first {hand : List Card}
    (hmax : ∀ v, (filterVal hand v).length ≤ 2) (h5 : 5 ≤ hand.length) :
    ∀ (values : List Nat), values.Pairwise (· > ·) →
      ∀ r, two_pair_loop hand values [] = r → r ≠ [] →
      ∃ vA vB k, vA ∈ values ∧ vB ∈ values ∧ vB < vA ∧
        (filterVal hand vA).length = 2 ∧ (filterVal hand vB).length = 2 ∧
        r = filterVal hand vA ++ filterVal hand vB ++ [k] ∧
        k ∈ hand ∧ k.value ≠ vA ∧ k.value ≠ vB := by
  intro values
  induction values with
  | nil =>
      intro _ r hr hne
      rw [two_pair_loop] at hr
      exact absurd hr.symm hne
  | cons v vs ih =>
      intro hsort r hr hne
      rw [List.pairwise_cons] at hsort
      simp only [two_pair_loop] at hr
      by_cases hv2 : 2 ≤ (filterVal hand v).length
      · rw [if_pos hv2] at hr
        have hvlen : (filterVal hand v).length = 2 := le_antisymm (hmax v) hv2
        have htake : (filterVal hand v).take 2 = filterVal hand v :=
          List.take_of_length_le (le_of_eq hvlen)
        rw [htake, List.nil_append] at hr
        rw [if_neg (by omega)] at hr
        rcases two_pair_loop_second hmax h5 hvlen vs
            (fun w hw => hsort.1 w hw) r hr hne with
          ⟨vB, k, hm, hlt, hlenB, heq, hk⟩
        exact ⟨v, vB, k, List.mem_cons_self v vs, List.mem_cons_of_mem v hm, hlt,
          hvlen, hlenB, heq, hk⟩
      · rw [if_neg hv2] at hr
        rcases ih hsort.2 r hr hne with ⟨vA, vB, k, hmA, hmB, hrest⟩
        exact ⟨vA, vB, k, List.mem_cons_of_mem v hmA, List.mem_cons_of_mem v hmB, hrest⟩

theorem get_two_pair_spec {hand : List Card}
    (hmax : ∀ v, (filterVal hand v).length ≤ 2) (h5 : 5 ≤ hand.length)
    (hne : get_two_pair hand ≠ []) :
    ∃ vA vB k, vB < vA ∧
      (filterVal hand vA).length = 2 ∧ (filterVal hand vB).length = 2 ∧
      get_two_pair hand = filterVal hand vA ++ filterVal hand vB ++ [k] ∧
      k ∈ hand ∧ k.value ≠ vA ∧ k.value ≠ vB := by
  rcases two_pair_loop_first hmax h5 (values_desc hand) (values_desc_strict hand)
      (get_two_pair hand) rfl hne with
    ⟨vA, vB, k, -, -, hlt, hA, hB, heq, hk⟩
  exact ⟨vA, vB, k, hlt, hA, hB, heq, hk⟩

theorem two_pair_loop_nil_of_single {hand : List Card} {vA : Nat}
    (hmax : ∀ v, (filterVal hand v).length ≤ 2)
    (honly : ∀ w, 2 ≤ (filterVal hand w).length → w = vA) :
    ∀ (values : List Nat), values.Nodup →
      ∀ (pairs : List Card), pairs.length ≤ 2 → (pairs ≠ [] → vA ∉ values) →
      two_pair_loop hand values pairs = [] := by
  intro values
  induction values with
  | nil =>
      intro _ pairs _ _
      rw [two_pair_loop]
  | cons v vs ih =>
      intro hnd pairs hplen hpv
      rw [List.nodup_cons] at hnd
      simp only [two_pair_loop]
      by_cases hv2 : 2 ≤ (filterVal hand v).length
      · rw [if_pos hv2]
        have hva : v = vA := honly v hv2
        have hpairs : pairs = [] := by
          by_contra hne2
          exact (hpv hne2) (hva ▸ List.mem_cons_self v vs)
        subst hpairs
        have hvlen : (filterVal hand v).length = 2 := le_antisymm (hmax v) hv2
        rw [if_neg (by
          rw [List.nil_append, List.length_take]
          omega)]
        refine ih hnd.2 _ (by rw [List.nil_append, List.length_take]; omega) ?_
        intro hne2 hmem
        exact hnd.1 (hva ▸ hmem)
      · rw [if_neg hv2]
        exact ih hnd.2 pairs hplen (fun hne2 hmem => hpv hne2 (List.mem_cons_of_mem v hmem))

theorem get_two_pair_nil_of_single {hand : List Card} {vA : Nat}
    (hmax : ∀ v, (filterVal hand v).length ≤ 2)
    (honly : ∀ w, 2 ≤ (filterVal hand w).length → w = vA) :
    get_two_pair hand = [] :=
  two_pair_loop_nil_of_single hmax honly (values_desc hand) (nodup_values_desc hand)
    [] (by simp) (fun h => absurd rfl h)

theorem two_pair_len5 {hand : List Card}
    (hmax : ∀ v, (filterVal hand v).length ≤ 2) (h5 : 5 ≤ hand.length)
    (hne : get_two_pair hand ≠ []) :
    (get_two_pair hand).length = 5 ∧ ∀ c ∈ get_two_pair hand, c ∈ hand := by
  rcases get_two_pair_spec hmax h5 hne with ⟨vA, vB, k, -, hA, hB, heq, hk, -, -⟩
  rw [heq]
  constructor
  · rw [List.length_append, List.length_append, hA, hB]
    rfl
  · intro c hc
    rcases List.mem_append.mp hc with h | h
    · rcases List.mem_append.mp h with h | h
      · exact (mem_filterVal.mp h).1
      · exact (mem_filterVal.mp h).1
    · rw [List.mem_singleton.mp h]
      exact hk

/-! ## Claim: evaluate returns a category and exactly 5 cards of the hand -/

theorem eval_go_best (hand : List Card) (h5 : 5 ≤ hand.length) (hnd : hand.Nodup) :
    (eval_go hand).2.length = 5 ∧ ∀ c ∈ (eval_go hand).2, c ∈ hand := by
  cases hsf : sf_cards hand with
  | cons c rest =>
      rcases sf_cards_spec hsf (by simp) with ⟨hflne, hsteq⟩
      have hstne : get_straight_cards (get_flush_cards hand) ≠ [] := by
        rw [hsteq]
        simp
      rcases straight_len5 hstne with ⟨hslen, hsmem⟩
      rcases flush_len5 hflne with ⟨-, hfmem⟩
      rw [eval_go_sf hsf]
      show (c :: rest).length = 5 ∧ ∀ x ∈ c :: rest, x ∈ hand
      rw [← hsteq]
      exact ⟨hslen, fun x hx => hfmem x (hsmem x hx)⟩
  | nil =>
      by_cases h4 : get_n_of_a_kind hand 4 = []
      · by_cases hfh : get_full_house hand = []
        · by_cases hfl : get_flush_cards hand = []
          · by_cases hst : get_straight_cards hand = []
            · by_cases h3 : get_n_of_a_kind hand 3 = []
              · by_cases htp : get_two_pair hand = []
                · by_cases h2 : get_n_of_a_kind hand 2 = []
                  · rw [eval_go_high hsf h4 hfh hfl hst h3 htp h2]
                    show ((sortCardsDesc hand).take 5).length = 5
                      ∧ ∀ x ∈ (sortCardsDesc hand).take 5, x ∈ hand
                    constructor
                    · rw [List.length_take, length_sortCardsDesc]
                      omega
                    · intro x hx
                      exact mem_sortCardsDesc.mp ((List.take_sublist _ _).subset hx)
                  · rw [eval_go_pair hsf h4 hfh hfl hst h3 htp rfl h2]
                    refine get_n_len5 (by norm_num) (by norm_num) h5 ?_ h2
                    intro v
                    have := (get_n_nil_iff (by norm_num)).mp h3 v
                    omega
                · rw [eval_go_two_pair hsf h4 hfh hfl hst h3 rfl htp]
                  refine two_pair_len5 ?_ h5 htp
                  intro v
                  have := (get_n_nil_iff (by norm_num)).mp h3 v
                  omega
              · rw [eval_go_three hsf h4 hfh hfl hst rfl h3]
                refine get_n_len5 (by norm_num) (by norm_num) h5 ?_ h3
                intro v
                have := (get_n_nil_iff (by norm_num)).mp h4 v
                omega
            · rw [eval_go_straight hsf h4 hfh hfl rfl hst]
              exact straight_len5 hst
          · rw [eval_go_flush hsf h4 hfh hfl]
            rcases flush_len5 hfl with ⟨hl, hm⟩
            show ((get_flush_cards hand).take 5).length = 5
              ∧ ∀ x ∈ (get_flush_cards hand).take 5, x ∈ hand
            constructor
            · rw [List.length_take, hl]
              omega
            · intro x hx
              exact hm x ((List.take_sublist _ _).subset hx)
        · rw [eval_go_full_house hsf h4 rfl hfh]
          exact full_house_len5 hfh
      · rw [eval_go_four hsf rfl h4]
        exact get_n_len5 (by norm_num) (by norm_num) h5
          (fun v => filterVal_length_le_four hnd v) h4

/-- C1: on every hand of 5 to 7 pairwise-distinct cards, `evaluate` returns
a pair of a `HandRank` (one of the fixed 10 categories, by typing) and a
list of exactly 5 cards, each drawn from the input hand. -/
theorem evaluate_returns_five (hand : List Card) (h5 : 5 ≤ hand.length)
    (h7 : hand.length ≤ 7) (hnd : hand.Nodup) :
    ∃ (hr : HandRank) (best : List Card), evaluate hand = some (hr, best)
      ∧ best.length = 5 ∧ ∀ c ∈ best, c ∈ hand := by
  rcases eval_go_best hand h5 hnd with ⟨hlen, hmem⟩
  exact ⟨(eval_go hand).1, (eval_go hand).2, by rw [evaluate, if_neg (by omega)],
    hlen, hmem⟩

/-- Witness for C1 at a concrete 6-card hand. -/
theorem evaluate_returns_five_witness :
    ∃ (hr : HandRank) (best : List Card),
      evaluate [⟨7, Suit.HEARTS⟩, ⟨7, Suit.DIAMONDS⟩, ⟨2, Suit.CLUBS⟩, ⟨9, Suit.SPADES⟩,
          ⟨5, Suit.HEARTS⟩, ⟨11, Suit.DIAMONDS⟩] = some (hr, best)
        ∧ best.length = 5
        ∧ ∀ c ∈ best, c ∈ [⟨7, Suit.HEARTS⟩, ⟨7, Suit.DIAMONDS⟩, ⟨2, Suit.CLUBS⟩,
            ⟨9, Suit.SPADES⟩, ⟨5, Suit.HEARTS⟩, ⟨11, Suit.DIAMONDS⟩] :=
  evaluate_returns_five
    [⟨7, Suit.HEARTS⟩, ⟨7, Suit.DIAMONDS⟩, ⟨2, Suit.CLUBS⟩, ⟨9, Suit.SPADES⟩,
      ⟨5, Suit.HEARTS⟩, ⟨11, Suit.DIAMONDS⟩]
    (by decide) (by decide) (by decide)

/-! ## Claim: the full strength is a rational in [0, 1] -/

theorem two_pair_kicker_subset {hand pairs2 : List Card} :
    ∀ c ∈ two_pair_kicker hand pairs2, c ∈ hand := by
  intro c hc
  rw [two_pair_kicker] at hc
  cases hfind : (sortCardsDesc hand).find?
      (fun c => !(c.value == (pairs2.getD 0 default).value)
        && !(c.value == (pairs2.getD 2 default).value)) with
  | none => rw [hfind] at hc; cases hc
  | some k =>
      rw [hfind] at hc
      rw [List.mem_singleton.mp hc]
      exact mem_sortCardsDesc.mp (List.mem_of_find?_eq_some hfind)

theorem two_pair_loop_subset {hand : List Card} :
    ∀ (values : List Nat) (pairs : List Card), (∀ c ∈ pairs, c ∈ hand) →
      ∀ c ∈ two_pair_loop hand values pairs, c ∈ hand := by
  intro values
  induction values with
  | nil =>
      intro pairs hp c hc
      rw [two_pair_loop] at hc
      cases hc
  | cons v vs ih =>
      intro pairs hp c hc
      simp only [two_pair_loop] at hc
      have hp2 : ∀ x ∈ pairs ++ (filterVal hand v).take 2, x ∈ hand := by
        intro x hx
        rcases List.mem_append.mp hx with h | h
        · exact hp x h
        · exact (mem_filterVal.mp ((List.take_sublist _ _).subset h)).1
      by_cases hv2 : 2 ≤ (filterVal hand v).length
      · rw [if_pos hv2] at hc
        by_cases h4 : 4 ≤ (pairs ++ (filterVal hand v).take 2).length
        · rw [if_pos h4] at hc
          rcases List.mem_append.mp hc with h | h
          · exact hp2 c ((List.take_sublist _ _).subset h)
          · exact two_pair_kicker_subset c h
        · rw [if_neg h4] at hc
          exact ih _ hp2 c hc
      · rw [if_neg hv2] at hc
        exact ih _ hp c hc

theorem get_two_pair_subset {hand : List Card} :
    ∀ c ∈ get_two_pair hand, c ∈ hand :=
  two_pair_loop_subset (values_desc hand) [] (by simp)

/-- Every card of the best five returned by the dispatch is drawn from the
hand; no size or distinctness assumptions are needed. -/
theorem eval_go_mem (hand : List Card) : ∀ c ∈ (eval_go hand).2, c ∈ hand := by
  cases hsf : sf_cards hand with
  | cons c rest =>
      rcases sf_cards_spec hsf (by simp) with ⟨hflne, hsteq⟩
      have hstne : get_straight_cards (get_flush_cards hand) ≠ [] := by
        rw [hsteq]
        simp
      rcases straight_len5 hstne with ⟨-, hsmem⟩
      rcases flush_len5 hflne with ⟨-, hfmem⟩
      rw [eval_go_sf hsf]
      show ∀ x ∈ c :: rest, x ∈ hand
      rw [← hsteq]
      exact fun x hx => hfmem x (hsmem x hx)
  | nil =>
      by_cases h4 : get_n_of_a_kind hand 4 = []
      · by_cases hfh : get_full_house hand = []
        · by_cases hfl : get_flush_cards hand = []
          · by_cases hst : get_straight_cards hand = []
            · by_cases h3 : get_n_of_a_kind hand 3 = []
              · by_cases htp : get_two_pair hand = []
                · by_cases h2 : get_n_of_a_kind hand 2 = []
                  · rw [eval_go_high hsf h4 hfh hfl hst h3 htp h2]
                    intro x hx
                    exact mem_sortCardsDesc.mp ((List.take_sublist _ _).subset hx)
                  · rw [eval_go_pair hsf h4 hfh hfl hst h3 htp rfl h2]
                    exact get_n_subset
                · rw [eval_go_two_pair hsf h4 hfh hfl hst h3 rfl htp]
                  exact get_two_pair_subset
              · rw [eval_go_three hsf h4 hfh hfl hst rfl h3]
                exact get_n_subset
            · rw [eval_go_straight hsf h4 hfh hfl rfl hst]
              exact (straight_len5 hst).2
          · rw [eval_go_flush hsf h4 hfh hfl]
            intro x hx
            exact (flush_len5 hfl).2 x ((List.take_sublist _ _).subset hx)
        · rw [eval_go_full_house hsf h4 rfl hfh]
          exact (full_house_len5 hfh).2
      · rw [eval_go_four hsf rfl h4]
        exact get_n_subset

theorem preflop_score_bounds {a b : Card} (ha : 2 ≤ a.value ∧ a.value ≤ 14) :
    0 ≤ preflop_score a b ∧ preflop_score a b ≤ 1 := by
  have ha1 : (2 : ℚ) ≤ (a.value : ℚ) := by exact_mod_cast ha.1
  have ha2 : ((a.value : ℚ)) ≤ 14 := by exact_mod_cast ha.2
  by_cases h1 : a.value = b.value
  · rw [preflop_score, if_pos h1]
    constructor <;> [linarith; linarith]
  · simp only [preflop_score, if_neg h1]
    constructor
    · refine le_min (by norm_num) ?_
      split_ifs <;> linarith
    · exact min_le_left _ _

theorem preflop_bounds {hand : List Card} (hlen : hand.length = 2)
    (hvalid : ∀ c ∈ hand, 2 ≤ c.value ∧ c.value ≤ 14) :
    ∃ q, calculate_preflop_strength hand = some q ∧ 0 ≤ q ∧ q ≤ 1 := by
  rcases List.length_eq_two.mp hlen with ⟨c1, c2, rfl⟩
  rw [calculate_preflop_strength, if_neg (by simp)]
  by_cases hc : c2.value ≤ c1.value
  · rw [sortCardsDesc_pair_eq hc]
    exact ⟨preflop_score c1 c2, rfl, preflop_score_bounds (hvalid c1 (by simp))⟩
  · rw [sortCardsDesc_pair_swap hc]
    exact ⟨preflop_score c2 c1, rfl, preflop_score_bounds (hvalid c2 (by simp))⟩

theorem getD_valid {best : List Card} (i : Nat)
    (hvalid : ∀ c ∈ best, 2 ≤ c.value ∧ c.value ≤ 14) :
    2 ≤ (best.getD i default).value ∧ (best.getD i default).value ≤ 14 := by
  by_cases h : i < best.length
  · rw [List.getD_eq_getElem best default h]
    exact hvalid _ (List.getElem_mem h)
  · rw [List.getD_eq_default best default (by omega)]
    constructor <;> norm_num [default]

theorem quality_adjustment_bounds (hr : HandRank) {best : List Card}
    (hvalid : ∀ c ∈ best, 2 ≤ c.value ∧ c.value ≤ 14) :
    0 ≤ calculate_quality_adjustment hr best
      ∧ calculate_quality_adjustment hr best ≤ 1 := by
  have h0 := getD_valid 0 hvalid
  have h2 := getD_valid 2 hvalid
  have h0a : (2 : ℚ) ≤ ((best.getD 0 default).value : ℚ) := by exact_mod_cast h0.1
  have h0b : ((best.getD 0 default).value : ℚ) ≤ 14 := by exact_mod_cast h0.2
  have h2a : (2 : ℚ) ≤ ((best.getD 2 default).value : ℚ) := by exact_mod_cast h2.1
  have h2b : ((best.getD 2 default).value : ℚ) ≤ 14 := by exact_mod_cast h2.2
  have hhigh : (0 : ℚ) ≤ (((best.getD 0 default).value : ℚ) - 2) / 12
      ∧ (((best.getD 0 default).value : ℚ) - 2) / 12 ≤ 1 := ⟨by linarith, by linarith⟩
  have htwo : (0 : ℚ) ≤ ((((best.getD 0 default).value : ℚ) - 2)
        + (((best.getD 2 default).value : ℚ) - 2)) / 24
      ∧ ((((best.getD 0 default).value : ℚ) - 2)
        + (((best.getD 2 default).value : ℚ) - 2)) / 24 ≤ 1 := ⟨by linarith, by linarith⟩
  cases hr with
  | HIGH_CARD => exact hhigh
  | PAIR => exact hhigh
  | TWO_PAIR => exact htwo
  | THREE_OF_A_KIND => exact ⟨zero_le_one, le_refl 1⟩
  | STRAIGHT => exact ⟨zero_le_one, le_refl 1⟩
  | FLUSH => exact ⟨zero_le_one, le_refl 1⟩
  | FULL_HOUSE => exact ⟨zero_le_one, le_refl 1⟩
  | FOUR_OF_A_KIND => exact ⟨zero_le_one, le_refl 1⟩
  | STRAIGHT_FLUSH => exact ⟨zero_le_one, le_refl 1⟩
  | ROYAL_FLUSH => exact ⟨zero_le_one, le_refl 1⟩

theorem base_strength_bounds (hr : HandRank) :
    0 ≤ base_strength hr ∧ base_strength hr ≤ 1 := by
  cases hr <;> constructor <;> norm_num [base_strength]

theorem draw_step_bounds {s : ℚ} (h0 : 0 ≤ s) (h4 : s ≤ 4/10) (d : String × Nat) :
    0 ≤ draw_step s d ∧ draw_step s d ≤ 4/10 := by
  rw [draw_step]
  split
  · exact ⟨le_trans h0 (le_max_left _ _), max_le h4 (by norm_num)⟩
  · split
    · refine ⟨le_trans h0 (le_max_left _ _), max_le h4 ?_⟩
      split <;> norm_num
    · split
      · exact ⟨le_trans h0 (le_max_left _ _), max_le h4 (by norm_num)⟩
      · exact ⟨h0, h4⟩

theorem foldl_draw_step_bounds (l : List (String × Nat)) {s : ℚ}
    (h0 : 0 ≤ s) (h4 : s ≤ 4/10) :
    0 ≤ l.foldl draw_step s ∧ l.foldl draw_step s ≤ 4/10 := by
  induction l generalizing s with
  | nil => exact ⟨h0, h4⟩
  | cons d l ih =>
      rcases draw_step_bounds h0 h4 d with ⟨a, b⟩
      exact ih a b

theorem drawing_strength_bounds (hand community_cards : List Card) :
    0 ≤ calculate_drawing_strength hand community_cards
      ∧ calculate_drawing_strength hand community_cards ≤ 4/10 := by
  rw [calculate_drawing_strength]
  split
  · norm_num
  · exact foldl_draw_step_bounds _ (le_refl 0) (by norm_num)

/-- C2 counterexample: with 2 hole cards and 1 shared card the calculator
raises (the evaluator is called on only 3 cards), so no value in [0,1] is
returned. -/
theorem full_strength_raises_on_one_shared :
    calculate_full_strength [⟨2, Suit.HEARTS⟩, ⟨3, Suit.HEARTS⟩] [⟨4, Suit.HEARTS⟩] = none :=
  rfl

/-- C2 (amended): for 2 hole cards of valid ranks and 0, 3, 4 or 5 shared
cards of valid ranks, the full strength is a rational in [0, 1].  (With 1
or 2 shared cards the made-hand evaluator is invoked on fewer than 5 cards
and raises instead.) -/
theorem calculate_full_strength_bounds (hole shared : List Card)
    (hhole : hole.length = 2)
    (hvalid : ∀ c ∈ hole ++ shared, 2 ≤ c.value ∧ c.value ≤ 14)
    (hsh : shared.length = 0 ∨ shared.length = 3 ∨ shared.length = 4 ∨ shared.length = 5) :
    ∃ q, calculate_full_strength hole shared = some q ∧ 0 ≤ q ∧ q ≤ 1 := by
  rw [calculate_full_strength]
  by_cases hempty : shared.isEmpty
  · rw [if_pos hempty]
    exact preflop_bounds hhole (fun c hc => hvalid c (List.mem_append_left _ hc))
  · rw [if_neg hempty]
    have hshne : shared ≠ [] := by
      intro h
      rw [h] at hempty
      simp at hempty
    have hlen : 5 ≤ (hole ++ shared).length := by
      rw [List.length_append, hhole]
      rcases hsh with h | h | h | h
      · exact absurd (List.length_eq_zero.mp h) hshne
      all_goals omega
    have heval : evaluate (hole ++ shared) = some (eval_go (hole ++ shared)) := by
      rw [evaluate, if_neg (by omega)]
    have hmade : calculate_made_hand_strength hole shared
        = some (base_strength (eval_go (hole ++ shared)).1
            * calculate_quality_adjustment (eval_go (hole ++ shared)).1
                (eval_go (hole ++ shared)).2) := by
      rw [calculate_made_hand_strength, heval]
    rw [hmade]
    have hbase := base_strength_bounds (eval_go (hole ++ shared)).1
    have hvb : ∀ c ∈ (eval_go (hole ++ shared)).2, 2 ≤ c.value ∧ c.value ≤ 14 :=
      fun c hc => hvalid c (eval_go_mem (hole ++ shared) c hc)
    have hqual := quality_adjustment_bounds (eval_go (hole ++ shared)).1 hvb
    have hdraw := drawing_strength_bounds hole shared
    refine ⟨_, rfl, ?_, ?_⟩
    · refine le_max_iff.mpr (Or.inl ?_)
      exact mul_nonneg hbase.1 hqual.1
    · have hm1 : base_strength (eval_go (hole ++ shared)).1
          * calculate_quality_adjustment (eval_go (hole ++ shared)).1
              (eval_go (hole ++ shared)).2 ≤ 1 :=
        mul_le_one₀ hbase.2 hqual.1 hqual.2
      have hm0 : 0 ≤ base_strength (eval_go (hole ++ shared)).1
          * calculate_quality_adjustment (eval_go (hole ++ shared)).1
              (eval_go (hole ++ shared)).2 :=
        mul_nonneg hbase.1 hqual.1
      refine max_le hm1 ?_
      nlinarith [hdraw.1, hdraw.2]

/-- Witness for C2 (amended) at a concrete flop input. -/
theorem calculate_full_strength_bounds_witness :
    ∃ q, calculate_full_strength [⟨11, Suit.HEARTS⟩, ⟨10, Suit.HEARTS⟩]
      [⟨9, Suit.HEARTS⟩, ⟨2, Suit.DIAMONDS⟩, ⟨7, Suit.CLUBS⟩] = some q ∧ 0 ≤ q ∧ q ≤ 1 :=
  calculate_full_strength_bounds [⟨11, Suit.HEARTS⟩, ⟨10, Suit.HEARTS⟩]
    [⟨9, Suit.HEARTS⟩, ⟨2, Suit.DIAMONDS⟩, ⟨7, Suit.CLUBS⟩]
    (by decide) (by decide) (by decide)

/-! ## Lemmas towards idempotence: filter and count algebra -/

theorem filterVal_append (l1 l2 : List Card) (v : Nat) :
    filterVal (l1 ++ l2) v = filterVal l1 v ++ filterVal l2 v := by
  simp [filterVal, List.filter_append]

theorem filterVal_eq_self {l : List Card} {v : Nat} (h : ∀ c ∈ l, c.value = v) :
    filterVal l v = l := by
  rw [filterVal, List.filter_eq_self]
  intro a ha
  simp [h a ha]

theorem filterVal_eq_nil {l : List Card} {v : Nat} (h : ∀ c ∈ l, c.value ≠ v) :
    filterVal l v = [] := by
  rw [filterVal, List.filter_eq_nil_iff]
  intro a ha
  simp [h a ha]

theorem filterNotVal_append (l1 l2 : List Card) (v : Nat) :
    filterNotVal (l1 ++ l2) v = filterNotVal l1 v ++ filterNotVal l2 v := by
  simp [filterNotVal, List.filter_append]

theorem filterNotVal_eq_self {l : List Card} {v : Nat} (h : ∀ c ∈ l, c.value ≠ v) :
    filterNotVal l v = l := by
  rw [filterNotVal, List.filter_eq_self]
  intro a ha
  simp [h a ha]

theorem filterNotVal_eq_nil {l : List Card} {v : Nat} (h : ∀ c ∈ l, c.value = v) :
    filterNotVal l v = [] := by
  rw [filterNotVal, List.filter_eq_nil_iff]
  intro a ha
  simp [h a ha]

theorem filterVal_filterNotVal {hand : List Card} {v w : Nat} (h : w ≠ v) :
    filterVal (filterNotVal hand v) w = filterVal hand w := by
  rw [filterVal, filterNotVal, List.filter_filter]
  apply List.filter_congr
  intro c hc
  cases hcw : (c.value == w) with
  | true =>
      have : c.value = w := by simpa using hcw
      simp [this, h]
  | false => simp [hcw]

theorem find?_desc_eq_some {l : List Nat} {p : Nat → Bool} {v : Nat}
    (hsort : l.Pairwise (· > ·)) (hv : v ∈ l) (hp : p v = true)
    (habove : ∀ w ∈ l, v < w → p w = false) : l.find? p = some v := by
  induction l with
  | nil => cases hv
  | cons a l ih =>
      rw [List.pairwise_cons] at hsort
      rcases List.mem_cons.mp hv with rfl | hv2
      · rw [List.find?_cons_of_pos _ hp]
      · have hav : v < a := hsort.1 v hv2
        rw [List.find?_cons_of_neg _
          (by simp [habove a (List.mem_cons_self a l) hav])]
        exact ih hsort.2 hv2 (fun w hw hvw => habove w (List.mem_cons_of_mem a hw) hvw)

theorem get_n_eq_of_first {hand : List Card} {n : Nat} {v : Nat}
    (hcount : n ≤ (filterVal hand v).length)
    (hmem : ∃ c ∈ hand, c.value = v)
    (habove : ∀ w, v < w → (filterVal hand w).length < n) :
    get_n_of_a_kind hand n
      = (filterVal hand v).take n ++ (filterNotVal (sortCardsDesc hand) v).take (5 - n) := by
  rw [get_n_of_a_kind]
  have hfind : (values_desc hand).find? (fun w => decide (n ≤ (filterVal hand w).length))
      = some v := by
    refine find?_desc_eq_some (values_desc_strict hand) (mem_values_desc.mpr hmem)
      (by simpa using hcount) ?_
    intro w hw hvw
    simpa using Nat.not_le.mpr (habove w hvw)
  rw [hfind]

theorem two_le_count_of_two_mem {l : List Card} {a b : Card} {u : Nat}
    (ha : a ∈ l) (hb : b ∈ l) (hab : a ≠ b) (hav : a.value = u) (hbv : b.value = u) :
    2 ≤ (filterVal l u).length := by
  have hnd : ([a, b] : List Card).Nodup := by simp [hab]
  have hsub : ([a, b] : List Card) ⊆ filterVal l u := by
    intro x hx
    rcases List.mem_cons.mp hx with rfl | hx2
    · exact mem_filterVal.mpr ⟨ha, hav⟩
    · rw [List.mem_singleton.mp hx2]
      exact mem_filterVal.mpr ⟨hb, hbv⟩
  simpa using (List.subperm_of_subset hnd hsub).length_le

theorem values_nodup_of_counts {hand : List Card}
    (h : ∀ v, (filterVal hand v).length ≤ 1) :
    (hand.map (fun c => c.value)).Nodup := by
  induction hand with
  | nil => simp
  | cons c l ih =>
      simp only [List.map_cons, List.nodup_cons]
      constructor
      · intro hmem
        rcases List.mem_map.mp hmem with ⟨d, hd, hdv⟩
        have hd2 : d ∈ filterVal l c.value := mem_filterVal.mpr ⟨hd, hdv⟩
        have h2 : 2 ≤ (filterVal (c :: l) c.value).length := by
          have hpos := List.length_pos_of_mem hd2
          rw [filterVal, List.filter_cons_of_pos (by simp)]
          rw [filterVal] at hpos
          simp only [List.length_cons]
          omega
        have := h c.value
        omega
      · refine ih ?_
        intro v
        have hv := h v
        have hle : (filterVal l v).length ≤ (filterVal (c :: l) v).length := by
          simp only [filterVal, List.filter_cons]
          cases (c.value == v) <;> simp
        omega

theorem count_le_one_of_values_nodup {l : List Card}
    (h : (l.map (fun c => c.value)).Nodup) (v : Nat) :
    (filterVal l v).length ≤ 1 := by
  by_contra hgt
  push_neg at hgt
  have hlnd : l.Nodup := h.of_map
  have h1 : (filterVal l v).Nodup := hlnd.filter _
  cases hfl : filterVal l v with
  | nil =>
      rw [hfl] at hgt
      simp at hgt
  | cons x xs =>
      cases xs with
      | nil =>
          rw [hfl] at hgt
          simp at hgt
      | cons y ys =>
          have hx : x ∈ filterVal l v := by
            rw [hfl]
            simp
          have hy : y ∈ filterVal l v := by
            rw [hfl]
            simp
          have hxy : x ≠ y := by
            rw [hfl, List.nodup_cons] at h1
            intro hc
            exact h1.1 (hc ▸ List.mem_cons_self y ys)
          have hxv := (mem_filterVal.mp hx)
          have hyv := (mem_filterVal.mp hy)
          exact hxy (List.inj_on_of_nodup_map h hxv.1 hyv.1 (by rw [hxv.2, hyv.2]))

theorem filter_length_lt_of_not_all {l : List Card} {p : Card → Bool} {a : Card}
    (ha : a ∈ l) (hpa : p a = false) : (l.filter p).length < l.length := by
  induction l with
  | nil => cases ha
  | cons x xs ih =>
      rcases List.mem_cons.mp ha with rfl | ha2
      · rw [List.filter_cons_of_neg (by simp [hpa])]
        have := List.length_filter_le p xs
        simp only [List.length_cons]
        omega
      · rw [List.filter_cons]
        have hlt := ih ha2
        cases hx : p x <;> simp only [List.length_cons] <;> simp <;> omega

theorem exists_two_diff_suit {g : List Card} {v : Nat} (hlen : 2 ≤ g.length)
    (hgv : ∀ c ∈ g, c.value = v) (hgnd : g.Nodup) :
    ∃ a ∈ g, ∃ b ∈ g, a.suit ≠ b.suit := by
  cases g with
  | nil => simp at hlen
  | cons a g2 =>
      cases g2 with
      | nil => simp at hlen
      | cons b g3 =>
          refine ⟨a, by simp, b, by simp, ?_⟩
          rw [List.nodup_cons] at hgnd
          have hab : a ≠ b := fun h => hgnd.1 (h ▸ List.mem_cons_self b g3)
          have hav : a.value = v := hgv a (by simp)
          have hbv : b.value = v := hgv b (by simp)
          intro hsuit
          apply hab
          cases a
          cases b
          simp_all

theorem get_flush_cards_nil_of_two {best : List Card} (hlen : best.length ≤ 5)
    {a b : Card} (ha : a ∈ best) (hb : b ∈ best) (hs : a.suit ≠ b.suit) :
    get_flush_cards best = [] := by
  apply get_flush_cards_eq_nil
  intro s
  by_cases has : a.suit = s
  · have hbs : (fun c => c.suit == s) b = false := by
      simp only [beq_eq_false_iff_ne]
      intro h
      exact hs (by rw [has, h])
    have := filter_length_lt_of_not_all (p := fun c => c.suit == s) hb hbs
    rw [filterSuit]
    omega
  · have has2 : (fun c => c.suit == s) a = false := by
      simp only [beq_eq_false_iff_ne]
      exact has
    have := filter_length_lt_of_not_all (p := fun c => c.suit == s) ha has2
    rw [filterSuit]
    omega

theorem get_flush_cards_nil_of_subset {hand best : List Card}
    (hfl : get_flush_cards hand = []) (hnd : best.Nodup)
    (hsub : ∀ c ∈ best, c ∈ hand) :
    get_flush_cards best = [] := by
  apply get_flush_cards_eq_nil
  intro s
  have hcnt := not_flush_of_nil hfl s
  have hle : (filterSuit best s).length ≤ (filterSuit hand s).length := by
    refine List.Subperm.length_le (List.subperm_of_subset (hnd.filter _) ?_)
    intro c hc
    rw [mem_filterSuit] at hc ⊢
    exact ⟨hsub c hc.1, hc.2⟩
  omega

theorem dedupFirstAux_eq_nil [DecidableEq α] {seen l : List α}
    (h : ∀ x ∈ l, x ∈ seen) : dedupFirstAux seen l = [] := by
  induction l with
  | nil => rfl
  | cons a l ih =>
      rw [dedupFirstAux, if_pos (h a (List.mem_cons_self a l))]
      exact ih (fun x hx => h x (List.mem_cons_of_mem a hx))

theorem suits_in_order_const {l : List Card} {s : Suit} (hne : l ≠ [])
    (h : ∀ c ∈ l, c.suit = s) : suits_in_order l = [s] := by
  cases l with
  | nil => exact absurd rfl hne
  | cons a l2 =>
      rw [suits_in_order, List.map_cons, h a (by simp), dedupFirst, dedupFirstAux,
        if_neg (by simp)]
      congr 1
      refine dedupFirstAux_eq_nil ?_
      intro x hx
      rcases List.mem_map.mp hx with ⟨c, hc, rfl⟩
      simp [h c (List.mem_cons_of_mem a hc)]

theorem values_desc_of_strict {l : List Card}
    (h : l.Pairwise (fun a b => b.value < a.value)) :
    values_desc l = l.map (fun c => c.value) := by
  have hnd : (l.map (fun c => c.value)).Nodup := by
    refine nodup_of_pairwise_gt ?_
    exact List.pairwise_map.mpr (h.imp (fun hab => hab))
  rw [values_desc, distinct_values, dedupFirst_eq_self hnd]
  refine sortValsDesc_eq_self ?_
  exact List.pairwise_map.mpr (h.imp (fun hab => le_of_lt hab))

theorem find_none_of_straight_nil {hand : List Card}
    (h : get_straight_cards hand = []) :
    find_straight_high (values_desc hand) = none := by
  cases hfind : find_straight_high (values_desc hand) with
  | none => rfl
  | some hi =>
      rcases get_straight_cards_spec hfind with ⟨-, c0, c1, c2, c3, c4, heq, -⟩
      rw [heq] at h
      cases h

theorem find_straight_high_none_take :
    ∀ (l : List Nat), find_straight_high l = none →
      find_straight_high (l.take 5) = none
  | [], h => h
  | [_], h => h
  | [_, _], h => h
  | [_, _, _], h => h
  | [_, _, _, _], h => h
  | v0 :: v1 :: v2 :: v3 :: v4 :: rest, h => by
      rw [find_straight_high] at h
      by_cases hw : v0 - v4 = 4
      · rw [if_pos hw] at h
        cases h
      · show find_straight_high [v0, v1, v2, v3, v4] = none
        rw [find_straight_high, if_neg hw]
        rfl

theorem pick_value_unique {hand : List Card} {v : Nat} {c : Card}
    (hc : c ∈ hand) (hv : c.value = v) (huniq : ∀ d ∈ hand, d.value = v → d = c) :
    pick_value hand v = [c] := by
  rw [pick_value, find?_eq_some_of_unique hc (by simp [hv])
    (fun d hd hp => huniq d hd (by simpa using hp))]

theorem strict_of_sorted_valnodup {l : List Card}
    (hsort : l.Pairwise (fun a b => b.value ≤ a.value))
    (hvnd : (l.map (fun c => c.value)).Nodup) :
    l.Pairwise (fun a b => b.value < a.value) := by
  have hne : l.Pairwise (fun a b => a.value ≠ b.value) := List.pairwise_map.mp hvnd
  exact (hsort.and hne).imp (fun hab => lt_of_le_of_ne hab.1 (Ne.symm hab.2))

theorem kickers_nodup {hand : List Card} (hnd : hand.Nodup) (v k : Nat) :
    ((filterNotVal (sortCardsDesc hand) v).take k).Nodup := by
  refine List.Nodup.sublist (List.take_sublist _ _) ?_
  rw [filterNotVal]
  exact ((sortCardsDesc_perm hand).nodup_iff.mpr hnd).filter _

theorem pairwise_ge_of_const {l : List Card} {v : Nat} (h : ∀ c ∈ l, c.value = v) :
    l.Pairwise (fun a b => b.value ≤ a.value) := by
  induction l with
  | nil => simp
  | cons a l ih =>
      rw [List.pairwise_cons]
      refine ⟨?_, ih (fun c hc => h c (List.mem_cons_of_mem a hc))⟩
      intro b hb
      rw [h a (by simp), h b (List.mem_cons_of_mem a hb)]

theorem two_pair_loop_ne_nil_second {hand : List Card} {pairs : List Card}
    (hplen : pairs.length = 2) :
    ∀ (values : List Nat) (vB : Nat), vB ∈ values → 2 ≤ (filterVal hand vB).length →
      two_pair_loop hand values pairs ≠ [] := by
  intro values
  induction values with
  | nil =>
      intro vB h
      cases h
  | cons v vs ih =>
      intro vB hmem hcount
      simp only [two_pair_loop]
      by_cases hv2 : 2 ≤ (filterVal hand v).length
      · rw [if_pos hv2]
        rw [if_pos (by rw [List.length_append, hplen, List.length_take]; omega)]
        intro hnil
        have hlen := congrArg List.length hnil
        rw [List.length_append, List.length_take, List.length_append, hplen,
          List.length_take, List.length_nil] at hlen
        omega
      · rw [if_neg hv2]
        rcases List.mem_cons.mp hmem with rfl | hmem2
        · exact absurd hcount hv2
        · exact ih vB hmem2 hcount

theorem two_pair_loop_ne_nil {hand : List Card}
    (hmax : ∀ u, (filterVal hand u).length ≤ 2) :
    ∀ (values : List Nat), ∀ vA vB, vA ∈ values → vB ∈ values → vB < vA →
      2 ≤ (filterVal hand vA).length → 2 ≤ (filterVal hand vB).length →
      two_pair_loop hand values [] ≠ [] := by
  intro values
  induction values with
  | nil =>
      intro vA vB h
      cases h
  | cons v vs ih =>
      intro vA vB hmA hmB hlt hcA hcB
      simp only [two_pair_loop]
      by_cases hv2 : 2 ≤ (filterVal hand v).length
      · rw [if_pos hv2]
        have hvlen : (filterVal hand v).length = 2 := le_antisymm (hmax v) hv2
        rw [if_neg (by rw [List.nil_append, List.length_take]; omega)]
        have hone : vA ∈ vs ∨ vB ∈ vs := by
          rcases List.mem_cons.mp hmA with rfl | hA2
          · rcases List.mem_cons.mp hmB with heq | hB2
            · omega
            · exact Or.inr hB2
          · exact Or.inl hA2
        have hplen : (([] : List Card) ++ (filterVal hand v).take 2).length = 2 := by
          rw [List.nil_append, List.length_take]
          omega
        rcases hone with h | h
        · exact two_pair_loop_ne_nil_second hplen vs vA h hcA
        · exact two_pair_loop_ne_nil_second hplen vs vB h hcB
      · rw [if_neg hv2]
        have hA2 : vA ∈ vs := by
          rcases List.mem_cons.mp hmA with rfl | h
          · exact absurd hcA hv2
          · exact h
        have hB2 : vB ∈ vs := by
          rcases List.mem_cons.mp hmB with rfl | h
          · exact absurd hcB hv2
          · exact h
        exact ih vA vB hA2 hB2 hlt hcA hcB

theorem get_two_pair_ne_nil {hand : List Card}
    (hmax : ∀ u, (filterVal hand u).length ≤ 2) {vA vB : Nat}
    (hA : ∃ c ∈ hand, c.value = vA) (hB : ∃ c ∈ hand, c.value = vB) (hlt : vB < vA)
    (hcA : 2 ≤ (filterVal hand vA).length) (hcB : 2 ≤ (filterVal hand vB).length) :
    get_two_pair hand ≠ [] :=
  two_pair_loop_ne_nil hmax (values_desc hand) vA vB (mem_values_desc.mpr hA)
    (mem_values_desc.mpr hB) hlt hcA hcB

theorem pick_value_five {c0 c1 c2 c3 c4 : Card} {u : Nat} {c : Card}
    (hc : c ∈ ([c0, c1, c2, c3, c4] : List Card)) (hcv : c.value = u)
    (h0 : c0.value = u → c0 = c) (h1 : c1.value = u → c1 = c)
    (h2 : c2.value = u → c2 = c) (h3 : c3.value = u → c3 = c)
    (h4 : c4.value = u → c4 = c) :
    pick_value [c0, c1, c2, c3, c4] u = [c] := by
  refine pick_value_unique hc hcv ?_
  intro e he hev
  simp only [List.mem_cons, List.not_mem_nil, or_false] at he
  rcases he with rfl | rfl | rfl | rfl | rfl
  exacts [h0 hev, h1 hev, h2 hev, h3 hev, h4 hev]

theorem get_straight_cards_consec {c0 c1 c2 c3 c4 : Card} {hi : Nat} (hhi : 4 ≤ hi)
    (h0 : c0.value = hi) (h1 : c1.value = hi - 1) (h2 : c2.value = hi - 2)
    (h3 : c3.value = hi - 3) (h4 : c4.value = hi - 4) :
    get_straight_cards [c0, c1, c2, c3, c4] = [c0, c1, c2, c3, c4] := by
  have hstrict : ([c0, c1, c2, c3, c4] : List Card).Pairwise
      (fun a b => b.value < a.value) := by
    simp [List.pairwise_cons, h0, h1, h2, h3, h4]
    omega
  have hvd : values_desc [c0, c1, c2, c3, c4] = [hi, hi - 1, hi - 2, hi - 3, hi - 4] := by
    rw [values_desc_of_strict hstrict]
    simp [h0, h1, h2, h3, h4]
  have hfind : find_straight_high [hi, hi - 1, hi - 2, hi - 3, hi - 4] = some hi := by
    rw [find_straight_high, if_pos (by omega)]
  have hp0 := pick_value_five (c := c0) (u := hi) (by simp) h0 (fun _ => rfl)
    (fun hh => by exfalso; rw [h1] at hh; omega)
    (fun hh => by exfalso; rw [h2] at hh; omega)
    (fun hh => by exfalso; rw [h3] at hh; omega)
    (fun hh => by exfalso; rw [h4] at hh; omega)
  have hp1 := pick_value_five (c := c1) (u := hi - 1) (by simp) h1
    (fun hh => by exfalso; rw [h0] at hh; omega) (fun _ => rfl)
    (fun hh => by exfalso; rw [h2] at hh; omega)
    (fun hh => by exfalso; rw [h3] at hh; omega)
    (fun hh => by exfalso; rw [h4] at hh; omega)
  have hp2 := pick_value_five (c := c2) (u := hi - 2) (by simp) h2
    (fun hh => by exfalso; rw [h0] at hh; omega)
    (fun hh => by exfalso; rw [h1] at hh; omega) (fun _ => rfl)
    (fun hh => by exfalso; rw [h3] at hh; omega)
    (fun hh => by exfalso; rw [h4] at hh; omega)
  have hp3 := pick_value_five (c := c3) (u := hi - 3) (by simp) h3
    (fun hh => by exfalso; rw [h0] at hh; omega)
    (fun hh => by exfalso; rw [h1] at hh; omega)
    (fun hh => by exfalso; rw [h2] at hh; omega) (fun _ => rfl)
    (fun hh => by exfalso; rw [h4] at hh; omega)
  have hp4 := pick_value_five (c := c4) (u := hi - 4) (by simp) h4
    (fun hh => by exfalso; rw [h0] at hh; omega)
    (fun hh => by exfalso; rw [h1] at hh; omega)
    (fun hh => by exfalso; rw [h2] at hh; omega)
    (fun hh => by exfalso; rw [h3] at hh; omega) (fun _ => rfl)
  simp only [get_straight_cards, hvd, hfind, hp0, hp1, hp2, hp3, hp4]
  rfl

/-! ## Re-evaluation lemmas: running `evaluate` on a structured best-5 list -/

theorem reeval_four {g : List Card} {k : Card} {v : Nat}
    (hg4 : g.length = 4) (hgv : ∀ c ∈ g, c.value = v) (hgnd : g.Nodup)
    (hkv : k.value ≠ v) :
    evaluate (g ++ [k]) = some (HandRank.FOUR_OF_A_KIND, g ++ [k]) := by
  have hblen : (g ++ [k]).length = 5 := by
    rw [List.length_append, hg4]
    rfl
  have hcv : filterVal (g ++ [k]) v = g := by
    rw [filterVal_append, filterVal_eq_self hgv,
      filterVal_eq_nil (fun c hc => by rw [List.mem_singleton.mp hc]; exact hkv),
      List.append_nil]
  have hother : ∀ w, w ≠ v → (filterVal (g ++ [k]) w).length ≤ 1 := by
    intro w hw
    rw [filterVal_append, filterVal_eq_nil (fun c hc => by rw [hgv c hc]; exact Ne.symm hw),
      List.nil_append, filterVal]
    have := List.length_filter_le (fun c => c.value == w) [k]
    simpa using this
  have hfl : get_flush_cards (g ++ [k]) = [] := by
    rcases exists_two_diff_suit (by omega) hgv hgnd with ⟨a, ha, b, hb, hs⟩
    exact get_flush_cards_nil_of_two (by omega) (List.mem_append_left _ ha)
      (List.mem_append_left _ hb) hs
  have hsf := sf_cards_of_flush_nil hfl
  have h4 : get_n_of_a_kind (g ++ [k]) 4 = g ++ [k] := by
    have hmem : ∃ c ∈ g ++ [k], c.value = v := by
      cases g with
      | nil => simp at hg4
      | cons a g2 => exact ⟨a, by simp, hgv a (by simp)⟩
    have habove : ∀ w, v < w → (filterVal (g ++ [k]) w).length < 4 := by
      intro w hvw
      have := hother w (by omega)
      omega
    rw [get_n_eq_of_first (v := v) (by rw [hcv, hg4]) hmem habove, hcv,
      List.take_of_length_le (le_of_eq hg4), filterNotVal_sortCardsDesc]
    have hnv : filterNotVal (g ++ [k]) v = [k] := by
      rw [filterNotVal_append, filterNotVal_eq_nil hgv, List.nil_append,
        filterNotVal_eq_self (fun c hc => by rw [List.mem_singleton.mp hc]; exact hkv)]
    rw [hnv]
    rfl
  rw [evaluate, if_neg (by rw [hblen]; omega), eval_go_four hsf h4 (by simp)]

theorem reeval_full_house {g p : List Card} {v w : Nat}
    (hg3 : g.length = 3) (hgv : ∀ c ∈ g, c.value = v) (hgnd : g.Nodup)
    (hp2 : p.length = 2) (hpv : ∀ c ∈ p, c.value = w) (hvw : v ≠ w) :
    evaluate (g ++ p) = some (HandRank.FULL_HOUSE, g ++ p) := by
  have hblen : (g ++ p).length = 5 := by rw [List.length_append, hg3, hp2]
  have hcv : filterVal (g ++ p) v = g := by
    rw [filterVal_append, filterVal_eq_self hgv,
      filterVal_eq_nil (fun c hc => by rw [hpv c hc]; exact Ne.symm hvw), List.append_nil]
  have hcw : filterVal (g ++ p) w = p := by
    rw [filterVal_append, filterVal_eq_nil (fun c hc => by rw [hgv c hc]; exact hvw),
      filterVal_eq_self hpv, List.nil_append]
  have hother : ∀ u, u ≠ v → u ≠ w → filterVal (g ++ p) u = [] := by
    intro u huv huw
    rw [filterVal_append, filterVal_eq_nil (fun c hc => by rw [hgv c hc]; exact Ne.symm huv),
      filterVal_eq_nil (fun c hc => by rw [hpv c hc]; exact Ne.symm huw), List.append_nil]
  have hfl : get_flush_cards (g ++ p) = [] := by
    rcases exists_two_diff_suit (by omega) hgv hgnd with ⟨a, ha, b, hb, hs⟩
    exact get_flush_cards_nil_of_two (by omega) (List.mem_append_left _ ha)
      (List.mem_append_left _ hb) hs
  have hsf := sf_cards_of_flush_nil hfl
  have h4 : get_n_of_a_kind (g ++ p) 4 = [] := by
    rw [get_n_nil_iff (by norm_num)]
    intro u
    by_cases huv : u = v
    · rw [huv, hcv]
      omega
    by_cases huw : u = w
    · rw [huw, hcw]
      omega
    rw [hother u huv huw]
    simp
  have h3 : get_n_of_a_kind (g ++ p) 3 = g ++ p := by
    have hmem : ∃ c ∈ g ++ p, c.value = v := by
      cases g with
      | nil => simp at hg3
      | cons a g2 => exact ⟨a, by simp, hgv a (by simp)⟩
    have habove : ∀ u, v < u → (filterVal (g ++ p) u).length < 3 := by
      intro u hvu
      by_cases huw : u = w
      · rw [huw, hcw]
        omega
      · rw [hother u (by omega) huw]
        simp
    rw [get_n_eq_of_first (v := v) (by rw [hcv, hg3]) hmem habove, hcv,
      List.take_of_length_le (le_of_eq hg3), filterNotVal_sortCardsDesc]
    have hnv : filterNotVal (g ++ p) v = p := by
      rw [filterNotVal_append, filterNotVal_eq_nil hgv, List.nil_append,
        filterNotVal_eq_self (fun c hc => by rw [hpv c hc]; exact Ne.symm hvw)]
    rw [hnv, sortCardsDesc_eq_self (pairwise_ge_of_const hpv),
      List.take_of_length_le (by omega)]
  obtain ⟨t, g2, rfl⟩ := List.exists_cons_of_ne_nil
    (show g ≠ [] by intro h; rw [h] at hg3; cases hg3)
  obtain ⟨q, p2, rfl⟩ := List.exists_cons_of_ne_nil
    (show p ≠ [] by intro h; rw [h] at hp2; cases hp2)
  have htv : t.value = v := hgv t (by simp)
  have hrem : filterNotVal ((t :: g2) ++ (q :: p2)) t.value = q :: p2 := by
    rw [htv, filterNotVal_append, filterNotVal_eq_nil hgv, List.nil_append,
      filterNotVal_eq_self (fun c hc => by rw [hpv c hc]; exact Ne.symm hvw)]
  have h2p : get_n_of_a_kind (q :: p2) 2 = q :: p2 := by
    have hpw : filterVal (q :: p2) w = q :: p2 := filterVal_eq_self hpv
    have habove : ∀ u, w < u → (filterVal (q :: p2) u).length < 2 := by
      intro u hwu
      rw [filterVal_eq_nil (fun c hc => by rw [hpv c hc]; omega)]
      simp
    rw [get_n_eq_of_first (v := w) (by rw [hpw, hp2]) ⟨q, by simp, hpv q (by simp)⟩ habove,
      hpw, List.take_of_length_le (le_of_eq hp2), filterNotVal_sortCardsDesc,
      filterNotVal_eq_nil hpv]
    simp [sortCardsDesc]
  have hfh : get_full_house ((t :: g2) ++ (q :: p2)) = (t :: g2) ++ (q :: p2) := by
    rw [get_full_house_eq h3 (by rw [hrem]; exact h2p)]
    obtain ⟨b, c, rfl⟩ := List.length_eq_two.mp (by simpa using hg3)
    have hp2' : p2.length = 1 := by simpa using hp2
    simp [hp2']
  rw [evaluate, if_neg (by rw [hblen]; omega),
    eval_go_full_house hsf h4 hfh (by simp)]

theorem reeval_three {g : List Card} {k1 k2 : Card} {v : Nat}
    (hg3 : g.length = 3) (hgv : ∀ c ∈ g, c.value = v) (hgnd : g.Nodup)
    (hk1 : k1.value ≠ v) (hk2 : k2.value ≠ v) (h12 : k2.value < k1.value) :
    evaluate (g ++ [k1, k2]) = some (HandRank.THREE_OF_A_KIND, g ++ [k1, k2]) := by
  have hblen : (g ++ [k1, k2]).length = 5 := by
    rw [List.length_append, hg3]
    rfl
  have hks : ∀ c ∈ ([k1, k2] : List Card), c.value ≠ v := by
    intro c hc
    rcases List.mem_cons.mp hc with rfl | hc2
    · exact hk1
    · rw [List.mem_singleton.mp hc2]
      exact hk2
  have hknd : (([k1, k2] : List Card).map (fun c => c.value)).Nodup := by
    simp only [List.map_cons, List.map_nil, List.nodup_cons, List.mem_singleton,
      List.not_mem_nil, not_false_iff, and_true, List.nodup_nil]
    omega
  have hcv : filterVal (g ++ [k1, k2]) v = g := by
    rw [filterVal_append, filterVal_eq_self hgv, filterVal_eq_nil hks, List.append_nil]
  have hother : ∀ w, w ≠ v → (filterVal (g ++ [k1, k2]) w).length ≤ 1 := by
    intro w hw
    rw [filterVal_append, filterVal_eq_nil (fun c hc => by rw [hgv c hc]; exact Ne.symm hw),
      List.nil_append]
    exact count_le_one_of_values_nodup hknd w
  have hfl : get_flush_cards (g ++ [k1, k2]) = [] := by
    rcases exists_two_diff_suit (by omega) hgv hgnd with ⟨a, ha, b, hb, hs⟩
    exact get_flush_cards_nil_of_two (by omega) (List.mem_append_left _ ha)
      (List.mem_append_left _ hb) hs
  have hsf := sf_cards_of_flush_nil hfl
  have h4 : get_n_of_a_kind (g ++ [k1, k2]) 4 = [] := by
    rw [get_n_nil_iff (by norm_num)]
    intro u
    by_cases huv : u = v
    · rw [huv, hcv]
      omega
    · have := hother u huv
      omega
  have h3 : get_n_of_a_kind (g ++ [k1, k2]) 3 = g ++ [k1, k2] := by
    have hmem : ∃ c ∈ g ++ [k1, k2], c.value = v := by
      cases g with
      | nil => simp at hg3
      | cons a g2 => exact ⟨a, by simp, hgv a (by simp)⟩
    have habove : ∀ u, v < u → (filterVal (g ++ [k1, k2]) u).length < 3 := by
      intro u hvu
      have := hother u (by omega)
      omega
    rw [get_n_eq_of_first (v := v) (by rw [hcv, hg3]) hmem habove, hcv,
      List.take_of_length_le (le_of_eq hg3), filterNotVal_sortCardsDesc]
    have hnv : filterNotVal (g ++ [k1, k2]) v = [k1, k2] := by
      rw [filterNotVal_append, filterNotVal_eq_nil hgv, List.nil_append,
        filterNotVal_eq_self hks]
    rw [hnv, sortCardsDesc_eq_self (by
      simp [List.pairwise_cons]
      omega)]
    rfl
  obtain ⟨t, g2, rfl⟩ := List.exists_cons_of_ne_nil
    (show g ≠ [] by intro h; rw [h] at hg3; cases hg3)
  have htv : t.value = v := hgv t (by simp)
  have hrem : filterNotVal ((t :: g2) ++ [k1, k2]) t.value = [k1, k2] := by
    rw [htv, filterNotVal_append, filterNotVal_eq_nil hgv, List.nil_append,
      filterNotVal_eq_self hks]
  have hfh : get_full_house ((t :: g2) ++ [k1, k2]) = [] := by
    refine get_full_house_nil_of_pair_nil h3 ?_
    rw [hrem, get_n_nil_iff (by norm_num)]
    intro u
    have := count_le_one_of_values_nodup hknd u
    omega
  have hst : get_straight_cards ((t :: g2) ++ [k1, k2]) = [] := by
    have hsub2 : ∀ u ∈ values_desc ((t :: g2) ++ [k1, k2]), u ∈ [v, k1.value, k2.value] := ?_
    · exact get_straight_cards_nil_of_few
        (lt_of_le_of_lt (values_desc_length_le hsub2) (by simp))
    intro u hu
    rcases mem_values_desc.mp hu with ⟨c, hc, rfl⟩
    rcases List.mem_append.mp hc with h | h
    · simp [hgv c h]
    · simp only [List.mem_cons, List.mem_singleton, List.not_mem_nil, or_false] at h
      rcases h with rfl | rfl
      · simp
      · simp
  rw [evaluate, if_neg (by rw [hblen]; omega),
    eval_go_three hsf h4 hfh hfl hst h3 (by simp)]

theorem reeval_two_pair {pA pB : List Card} {k : Card} {vA vB : Nat}
    (hA2 : pA.length = 2) (hAv : ∀ c ∈ pA, c.value = vA) (hAnd : pA.Nodup)
    (hB2 : pB.length = 2) (hBv : ∀ c ∈ pB, c.value = vB)
    (hBA : vB < vA) (hkA : k.value ≠ vA) (hkB : k.value ≠ vB) :
    evaluate (pA ++ pB ++ [k]) = some (HandRank.TWO_PAIR, pA ++ pB ++ [k]) := by
  have hblen : (pA ++ pB ++ [k]).length = 5 := by
    rw [List.length_append, List.length_append, hA2, hB2]
    rfl
  have hcA : filterVal (pA ++ pB ++ [k]) vA = pA := by
    rw [filterVal_append, filterVal_append, filterVal_eq_self hAv,
      filterVal_eq_nil (fun c hc => by rw [hBv c hc]; omega),
      filterVal_eq_nil (fun c hc => by rw [List.mem_singleton.mp hc]; exact hkA),
      List.append_nil, List.append_nil]
  have hcB : filterVal (pA ++ pB ++ [k]) vB = pB := by
    rw [filterVal_append, filterVal_append,
      filterVal_eq_nil (fun c hc => by rw [hAv c hc]; omega),
      filterVal_eq_self hBv,
      filterVal_eq_nil (fun c hc => by rw [List.mem_singleton.mp hc]; exact hkB),
      List.append_nil, List.nil_append]
  have hcK : filterVal (pA ++ pB ++ [k]) k.value = [k] := by
    rw [filterVal_append, filterVal_append,
      filterVal_eq_nil (fun c hc => by rw [hAv c hc]; exact fun h => hkA h.symm),
      filterVal_eq_nil (fun c hc => by rw [hBv c hc]; exact fun h => hkB h.symm),
      filterVal_eq_self (fun c hc => by rw [List.mem_singleton.mp hc]),
      List.nil_append, List.nil_append]
  have hother : ∀ u, u ≠ vA → u ≠ vB → u ≠ k.value →
      filterVal (pA ++ pB ++ [k]) u = [] := by
    intro u huA huB huk
    rw [filterVal_append, filterVal_append,
      filterVal_eq_nil (fun c hc => by rw [hAv c hc]; exact Ne.symm huA),
      filterVal_eq_nil (fun c hc => by rw [hBv c hc]; exact Ne.symm huB),
      filterVal_eq_nil (fun c hc => by rw [List.mem_singleton.mp hc]; exact Ne.symm huk),
      List.append_nil, List.append_nil]
  have hmax : ∀ u, (filterVal (pA ++ pB ++ [k]) u).length ≤ 2 := by
    intro u
    by_cases huA : u = vA
    · rw [huA, hcA, hA2]
    by_cases huB : u = vB
    · rw [huB, hcB, hB2]
    by_cases huk : u = k.value
    · rw [huk, hcK]
      simp
    · rw [hother u huA huB huk]
      simp
  have hfl : get_flush_cards (pA ++ pB ++ [k]) = [] := by
    rcases exists_two_diff_suit (by omega) hAv hAnd with ⟨a, ha, b, hb, hs⟩
    exact get_flush_cards_nil_of_two (by omega)
      (List.mem_append_left _ (List.mem_append_left _ ha))
      (List.mem_append_left _ (List.mem_append_left _ hb)) hs
  have hsf := sf_cards_of_flush_nil hfl
  have h4 : get_n_of_a_kind (pA ++ pB ++ [k]) 4 = [] := by
    rw [get_n_nil_iff (by norm_num)]
    intro u
    have := hmax u
    omega
  have h3 : get_n_of_a_kind (pA ++ pB ++ [k]) 3 = [] := by
    rw [get_n_nil_iff (by norm_num)]
    intro u
    have := hmax u
    omega
  have hfh := get_full_house_nil_of_three_nil h3
  have hst : get_straight_cards (pA ++ pB ++ [k]) = [] := by
    have hsub2 : ∀ u ∈ values_desc (pA ++ pB ++ [k]), u ∈ [vA, vB, k.value] := ?_
    · exact get_straight_cards_nil_of_few
        (lt_of_le_of_lt (values_desc_length_le hsub2) (by simp))
    intro u hu
    rcases mem_values_desc.mp hu with ⟨c, hc, rfl⟩
    rcases List.mem_append.mp hc with h | h
    · rcases List.mem_append.mp h with h | h
      · simp [hAv c h]
      · simp [hBv c h]
    · rw [List.mem_singleton.mp h]
      simp
  have hAhead : ∃ c ∈ pA ++ pB ++ [k], c.value = vA := by
    cases pA with
    | nil => simp at hA2
    | cons a l =>
        exact ⟨a, List.mem_append_left _ (List.mem_append_left _ (by simp)),
          hAv a (by simp)⟩
  have hBhead : ∃ c ∈ pA ++ pB ++ [k], c.value = vB := by
    cases pB with
    | nil => simp at hB2
    | cons a l =>
        exact ⟨a, List.mem_append_left _ (List.mem_append_right _ (by simp)),
          hBv a (by simp)⟩
  have hne : get_two_pair (pA ++ pB ++ [k]) ≠ [] :=
    get_two_pair_ne_nil hmax hAhead hBhead hBA (by rw [hcA, hA2]) (by rw [hcB, hB2])
  have htp : get_two_pair (pA ++ pB ++ [k]) = pA ++ pB ++ [k] := by
    rcases get_two_pair_spec hmax (by omega) hne with
      ⟨vA2, vB2, k2, hlt2, hA3, hB3, heq, hkmem, hk2A, hk2B⟩
    have hA4 : vA2 = vA ∨ vA2 = vB := by
      by_contra hcon
      push_neg at hcon
      by_cases hk3 : vA2 = k.value
      · rw [hk3, hcK] at hA3
        simp at hA3
      · rw [hother vA2 hcon.1 hcon.2 hk3] at hA3
        simp at hA3
    have hB4 : vB2 = vA ∨ vB2 = vB := by
      by_contra hcon
      push_neg at hcon
      by_cases hk3 : vB2 = k.value
      · rw [hk3, hcK] at hB3
        simp at hB3
      · rw [hother vB2 hcon.1 hcon.2 hk3] at hB3
        simp at hB3
    have hA5 : vA2 = vA := by omega
    have hB5 : vB2 = vB := by omega
    rw [hA5, hB5, hcA, hcB] at heq
    have hkk : k2 = k := by
      rw [hA5] at hk2A
      rw [hB5] at hk2B
      rcases List.mem_append.mp hkmem with h | h
      · rcases List.mem_append.mp h with h | h
        · exact absurd (hAv k2 h) hk2A
        · exact absurd (hBv k2 h) hk2B
      · exact List.mem_singleton.mp h
    rw [hkk] at heq
    exact heq
  rw [evaluate, if_neg (by rw [hblen]; omega),
    eval_go_two_pair hsf h4 hfh hfl hst h3 htp (by simp)]

theorem reeval_pair {g : List Card} {k1 k2 k3 : Card} {v : Nat}
    (hg2 : g.length = 2) (hgv : ∀ c ∈ g, c.value = v) (hgnd : g.Nodup)
    (hk1 : k1.value ≠ v) (hk2 : k2.value ≠ v) (hk3 : k3.value ≠ v)
    (h12 : k2.value < k1.value) (h23 : k3.value < k2.value) :
    evaluate (g ++ [k1, k2, k3]) = some (HandRank.PAIR, g ++ [k1, k2, k3]) := by
  have hblen : (g ++ [k1, k2, k3]).length = 5 := by
    rw [List.length_append, hg2]
    rfl
  have hks : ∀ c ∈ ([k1, k2, k3] : List Card), c.value ≠ v := by
    intro c hc
    simp only [List.mem_cons, List.not_mem_nil, or_false] at hc
    rcases hc with rfl | rfl | rfl
    exacts [hk1, hk2, hk3]
  have hknd : (([k1, k2, k3] : List Card).map (fun c => c.value)).Nodup := by
    simp only [List.map_cons, List.map_nil, List.nodup_cons, List.mem_cons,
      List.mem_singleton, List.not_mem_nil, or_false, List.nodup_nil, and_true, not_or,
      not_false_iff]
    omega
  have hcv : filterVal (g ++ [k1, k2, k3]) v = g := by
    rw [filterVal_append, filterVal_eq_self hgv, filterVal_eq_nil hks, List.append_nil]
  have hother : ∀ w, w ≠ v → (filterVal (g ++ [k1, k2, k3]) w).length ≤ 1 := by
    intro w hw
    rw [filterVal_append, filterVal_eq_nil (fun c hc => by rw [hgv c hc]; exact Ne.symm hw),
      List.nil_append]
    exact count_le_one_of_values_nodup hknd w
  have hmax : ∀ u, (filterVal (g ++ [k1, k2, k3]) u).length ≤ 2 := by
    intro u
    by_cases huv : u = v
    · rw [huv, hcv]
      omega
    · have := hother u huv
      omega
  have hfl : get_flush_cards (g ++ [k1, k2, k3]) = [] := by
    rcases exists_two_diff_suit (by omega) hgv hgnd with ⟨a, ha, b, hb, hs⟩
    exact get_flush_cards_nil_of_two (by omega) (List.mem_append_left _ ha)
      (List.mem_append_left _ hb) hs
  have hsf := sf_cards_of_flush_nil hfl
  have h4 : get_n_of_a_kind (g ++ [k1, k2, k3]) 4 = [] := by
    rw [get_n_nil_iff (by norm_num)]
    intro u
    have := hmax u
    omega
  have h3 : get_n_of_a_kind (g ++ [k1, k2, k3]) 3 = [] := by
    rw [get_n_nil_iff (by norm_num)]
    intro u
    have := hmax u
    omega
  have hfh := get_full_house_nil_of_three_nil h3
  have hst : get_straight_cards (g ++ [k1, k2, k3]) = [] := by
    have hsub2 : ∀ u ∈ values_desc (g ++ [k1, k2, k3]),
        u ∈ [v, k1.value, k2.value, k3.value] := ?_
    · exact get_straight_cards_nil_of_few
        (lt_of_le_of_lt (values_desc_length_le hsub2) (by simp))
    intro u hu
    rcases mem_values_desc.mp hu with ⟨c, hc, rfl⟩
    rcases List.mem_append.mp hc with h | h
    · simp [hgv c h]
    · simp only [List.mem_cons, List.mem_singleton, List.not_mem_nil, or_false] at h
      rcases h with rfl | rfl | rfl
      · simp
      · simp
      · simp
  have htp : get_two_pair (g ++ [k1, k2, k3]) = [] := by
    have honly2 : ∀ w, 2 ≤ (filterVal (g ++ [k1, k2, k3]) w).length → w = v := by
      intro w hw
      by_contra hwv
      have := hother w hwv
      omega
    exact get_two_pair_nil_of_single hmax honly2
  have h2 : get_n_of_a_kind (g ++ [k1, k2, k3]) 2 = g ++ [k1, k2, k3] := by
    have hmem : ∃ c ∈ g ++ [k1, k2, k3], c.value = v := by
      cases g with
      | nil => simp at hg2
      | cons a g2 => exact ⟨a, by simp, hgv a (by simp)⟩
    have habove : ∀ u, v < u → (filterVal (g ++ [k1, k2, k3]) u).length < 2 := by
      intro u hvu
      have := hother u (by omega)
      omega
    rw [get_n_eq_of_first (v := v) (by rw [hcv, hg2]) hmem habove, hcv,
      List.take_of_length_le (le_of_eq hg2), filterNotVal_sortCardsDesc]
    have hnv : filterNotVal (g ++ [k1, k2, k3]) v = [k1, k2, k3] := by
      rw [filterNotVal_append, filterNotVal_eq_nil hgv, List.nil_append,
        filterNotVal_eq_self hks]
    rw [hnv, sortCardsDesc_eq_self (by
      simp [List.pairwise_cons]
      omega)]
    rfl
  rw [evaluate, if_neg (by rw [hblen]; omega),
    eval_go_pair hsf h4 hfh hfl hst h3 htp h2 (by simp)]

theorem reeval_high {best : List Card} (hlen : best.length = 5)
    (hsort : best.Pairwise (fun a b => b.value < a.value))
    (hfl : get_flush_cards best = [])
    (hst : find_straight_high (best.map (fun c => c.value)) = none) :
    evaluate best = some (HandRank.HIGH_CARD, best) := by
  have hvnd : (best.map (fun c => c.value)).Nodup :=
    nodup_of_pairwise_gt (List.pairwise_map.mpr (hsort.imp (fun h => h)))
  have hone : ∀ u, (filterVal best u).length ≤ 1 := count_le_one_of_values_nodup hvnd
  have hsf := sf_cards_of_flush_nil hfl
  have h4 : get_n_of_a_kind best 4 = [] := by
    rw [get_n_nil_iff (by norm_num)]
    intro u
    have := hone u
    omega
  have h3 : get_n_of_a_kind best 3 = [] := by
    rw [get_n_nil_iff (by norm_num)]
    intro u
    have := hone u
    omega
  have h2 : get_n_of_a_kind best 2 = [] := by
    rw [get_n_nil_iff (by norm_num)]
    intro u
    have := hone u
    omega
  have hfh := get_full_house_nil_of_three_nil h3
  have hstc : get_straight_cards best = [] := by
    apply get_straight_cards_eq_nil
    rw [values_desc_of_strict hsort]
    exact hst
  have htp : get_two_pair best = [] := by
    have honly2 : ∀ w, 2 ≤ (filterVal best w).length → w = 0 := by
      intro w hw
      exfalso
      have := hone w
      omega
    exact get_two_pair_nil_of_single (fun u => by have := hone u; omega) honly2
  rw [evaluate, if_neg (by omega), eval_go_high hsf h4 hfh hfl hstc h3 htp h2,
    sortCardsDesc_eq_self (hsort.imp (fun h => le_of_lt h)),
    List.take_of_length_le (le_of_eq hlen)]

theorem reeval_flush {best : List Card} {s : Suit} (hlen : best.length = 5)
    (hsort : best.Pairwise (fun a b => b.value < a.value))
    (hs : ∀ c ∈ best, c.suit = s)
    (hst : find_straight_high (best.map (fun c => c.value)) = none) :
    evaluate best = some (HandRank.FLUSH, best) := by
  have hvnd : (best.map (fun c => c.value)).Nodup :=
    nodup_of_pairwise_gt (List.pairwise_map.mpr (hsort.imp (fun h => h)))
  have hone : ∀ u, (filterVal best u).length ≤ 1 := count_le_one_of_values_nodup hvnd
  have hbne : best ≠ [] := by
    intro h
    rw [h] at hlen
    cases hlen
  have hfs : filterSuit best s = best := by
    rw [filterSuit, List.filter_eq_self]
    intro a ha
    simp [hs a ha]
  have hflush : get_flush_cards best = best := by
    have hfind : (suits_in_order best).find?
        (fun s2 => decide (5 ≤ (filterSuit best s2).length)) = some s := by
      rw [suits_in_order_const hbne hs]
      rw [List.find?_cons_of_pos _ (by simp [hfs, hlen])]
    simp only [get_flush_cards, hfind]
    rw [hfs, sortCardsDesc_eq_self (hsort.imp (fun h => le_of_lt h)),
      List.take_of_length_le (le_of_eq hlen)]
  have hstc : get_straight_cards best = [] := by
    apply get_straight_cards_eq_nil
    rw [values_desc_of_strict hsort]
    exact hst
  have hsf : sf_cards best = [] := by
    rw [sf_cards, hflush, if_neg (by simp only [List.isEmpty_eq_true]; exact hbne)]
    exact hstc
  have h4 : get_n_of_a_kind best 4 = [] := by
    rw [get_n_nil_iff (by norm_num)]
    intro u
    have := hone u
    omega
  have h3 : get_n_of_a_kind best 3 = [] := by
    rw [get_n_nil_iff (by norm_num)]
    intro u
    have := hone u
    omega
  have hfh := get_full_house_nil_of_three_nil h3
  rw [evaluate, if_neg (by omega),
    eval_go_flush hsf h4 hfh (by rw [hflush]; exact hbne), hflush,
    List.take_of_length_le (le_of_eq hlen)]

theorem reeval_straight {c0 c1 c2 c3 c4 : Card} {hi : Nat} (hhi : 4 ≤ hi)
    (h0 : c0.value = hi) (h1 : c1.value = hi - 1) (h2 : c2.value = hi - 2)
    (h3 : c3.value = hi - 3) (h4 : c4.value = hi - 4)
    (hfl : get_flush_cards [c0, c1, c2, c3, c4] = []) :
    evaluate [c0, c1, c2, c3, c4] = some (HandRank.STRAIGHT, [c0, c1, c2, c3, c4]) := by
  have hstrict : ([c0, c1, c2, c3, c4] : List Card).Pairwise
      (fun a b => b.value < a.value) := by
    simp [List.pairwise_cons, h0, h1, h2, h3, h4]
    omega
  have hvnd : (([c0, c1, c2, c3, c4] : List Card).map (fun c => c.value)).Nodup :=
    nodup_of_pairwise_gt (List.pairwise_map.mpr (hstrict.imp (fun h => h)))
  have hone := count_le_one_of_values_nodup hvnd
  have hsf := sf_cards_of_flush_nil hfl
  have h4k : get_n_of_a_kind [c0, c1, c2, c3, c4] 4 = [] := by
    rw [get_n_nil_iff (by norm_num)]
    intro u
    have := hone u
    omega
  have h3k : get_n_of_a_kind [c0, c1, c2, c3, c4] 3 = [] := by
    rw [get_n_nil_iff (by norm_num)]
    intro u
    have := hone u
    omega
  have hfh := get_full_house_nil_of_three_nil h3k
  have hstc := get_straight_cards_consec hhi h0 h1 h2 h3 h4
  rw [evaluate, if_neg (by simp), eval_go_straight hsf h4k hfh hfl hstc (by simp)]

theorem reeval_straight_flush {c0 c1 c2 c3 c4 : Card} {hi : Nat} {s : Suit} (hhi : 4 ≤ hi)
    (h0 : c0.value = hi) (h1 : c1.value = hi - 1) (h2 : c2.value = hi - 2)
    (h3 : c3.value = hi - 3) (h4 : c4.value = hi - 4)
    (hs : ∀ c ∈ ([c0, c1, c2, c3, c4] : List Card), c.suit = s) :
    evaluate [c0, c1, c2, c3, c4]
      = some (if c0.value = 14 then HandRank.ROYAL_FLUSH else HandRank.STRAIGHT_FLUSH,
          [c0, c1, c2, c3, c4]) := by
  have hstrict : ([c0, c1, c2, c3, c4] : List Card).Pairwise
      (fun a b => b.value < a.value) := by
    simp [List.pairwise_cons, h0, h1, h2, h3, h4]
    omega
  have hfs : filterSuit [c0, c1, c2, c3, c4] s = [c0, c1, c2, c3, c4] := by
    rw [filterSuit, List.filter_eq_self]
    intro a ha
    simp [hs a ha]
  have hflush : get_flush_cards [c0, c1, c2, c3, c4] = [c0, c1, c2, c3, c4] := by
    have hfind : (suits_in_order [c0, c1, c2, c3, c4]).find?
        (fun s2 => decide (5 ≤ (filterSuit [c0, c1, c2, c3, c4] s2).length)) = some s := by
      rw [suits_in_order_const (by simp) hs]
      rw [List.find?_cons_of_pos _ (by simp [hfs])]
    simp only [get_flush_cards, hfind]
    rw [hfs, sortCardsDesc_eq_self (hstrict.imp (fun h => le_of_lt h))]
    rfl
  have hstc := get_straight_cards_consec hhi h0 h1 h2 h3 h4
  have hsf : sf_cards [c0, c1, c2, c3, c4] = [c0, c1, c2, c3, c4] := by
    rw [sf_cards, hflush, if_neg (by simp), hstc]
  rw [evaluate, if_neg (by simp), eval_go_sf hsf]

/-! ## Structure of the category results of the original hand -/

theorem full_house_nil_pair_nil {hand : List Card} {t : Card} {ts : List Card}
    (h3 : get_n_of_a_kind hand 3 = t :: ts) (hfh : get_full_house hand = []) :
    get_n_of_a_kind (filterNotVal hand t.value) 2 = [] := by
  cases h2 : get_n_of_a_kind (filterNotVal hand t.value) 2 with
  | nil => rfl
  | cons p ps =>
      rw [get_full_house_eq h3 h2] at hfh
      simp at hfh

theorem get_full_house_spec {hand : List Card}
    (h4c : get_n_of_a_kind hand 4 = [])
    (hne : get_full_house hand ≠ []) :
    ∃ v w, v ≠ w ∧ (filterVal hand v).length = 3 ∧ 2 ≤ (filterVal hand w).length ∧
      get_full_house hand = filterVal hand v ++ (filterVal hand w).take 2 := by
  have h3ne : get_n_of_a_kind hand 3 ≠ [] :=
    fun h => hne (get_full_house_nil_of_three_nil h)
  rcases get_n_spec (by norm_num) h3ne with ⟨v, hcount3, habove3, heqn3⟩
  have hg3 : (filterVal hand v).length = 3 := by
    have h4max := (get_n_nil_iff (n := 4) (by norm_num)).mp h4c v
    omega
  cases hfv : filterVal hand v with
  | nil =>
      rw [hfv] at hg3
      cases hg3
  | cons a l =>
      have hav : a.value = v := (mem_filterVal.mp (by rw [hfv]; simp)).2
      have hal : (a :: l).length = 3 := by
        rw [← hfv]
        exact hg3
      have heqn3' : get_n_of_a_kind hand 3
          = a :: (l ++ (filterNotVal (sortCardsDesc hand) v).take 2) := by
        rw [heqn3, hfv, List.take_of_length_le (le_of_eq hal), List.cons_append]
      have hrem : filterNotVal hand a.value = filterNotVal hand v := by rw [hav]
      cases h2r : get_n_of_a_kind (filterNotVal hand a.value) 2 with
      | nil => exact absurd (get_full_house_nil_of_pair_nil heqn3' h2r) hne
      | cons p ps =>
          have h2ne : get_n_of_a_kind (filterNotVal hand v) 2 ≠ [] := by
            rw [← hrem, h2r]
            simp
          rcases get_n_spec (n := 2) (by norm_num) h2ne with ⟨w, hcw, habw, heqw⟩
          have hwv : w ≠ v := by
            intro h
            rw [h, filterVal_eq_nil (fun c hc => (mem_filterNotVal.mp hc).2)] at hcw
            simp at hcw
          rw [filterVal_filterNotVal hwv] at hcw heqw
          have hXlen : ((filterVal hand w).take 2).length = 2 := by
            rw [List.length_take]
            omega
          have hps : p :: ps = (filterVal hand w).take 2
              ++ (filterNotVal (sortCardsDesc (filterNotVal hand v)) w).take 3 := by
            rw [← h2r, hrem]
            exact heqw
          refine ⟨v, w, Ne.symm hwv, hg3, hcw, ?_⟩
          rw [get_full_house_eq heqn3' h2r, hps]
          rw [List.take_left' hXlen]
          obtain ⟨b, c, rfl⟩ := List.length_eq_two.mp (by simpa using hal)
          rw [hfv]
          rfl

/-- C4: evaluation is idempotent.  For every hand of 5 to 7 pairwise-distinct
cards, if `evaluate hand = some (category, best5)` then
`evaluate best5 = some (category, best5)` — the same category and the same
5 cards in the same order. -/
theorem evaluate_idempotent (hand : List Card) (h5 : 5 ≤ hand.length)
    (h7 : hand.length ≤ 7) (hnd : hand.Nodup) (hr : HandRank) (best : List Card)
    (heval : evaluate hand = some (hr, best)) :
    evaluate best = some (hr, best) := by
  rw [evaluate, if_neg (by omega)] at heval
  injection heval with heval
  cases hsf : sf_cards hand with
  | cons c rest =>
      rw [eval_go_sf hsf] at heval
      injection heval with hrk hbs
      subst hrk
      subst hbs
      obtain ⟨hflne, hstr⟩ := sf_cards_spec hsf (by simp)
      rcases get_flush_cards_spec hflne with ⟨s, hcount, hfeq⟩
      have hFsub : ∀ x ∈ get_flush_cards hand, x.suit = s := by
        intro x hx
        rw [hfeq] at hx
        have hx2 := (List.take_sublist _ _).subset hx
        rw [mem_sortCardsDesc] at hx2
        exact (mem_filterSuit.mp hx2).2
      rcases get_straight_cards_ne_nil_find (by rw [hstr]; simp) with ⟨hi, hfind⟩
      rcases get_straight_cards_spec hfind with
        ⟨hhi, c0, c1, c2, c3, c4, heq5, p0, p1, p2, p3, p4⟩
      rw [hstr] at heq5
      injection heq5 with hc0 hrest
      subst hc0
      subst hrest
      refine reeval_straight_flush (s := s) hhi p0.2 p1.2 p2.2 p3.2 p4.2 ?_
      intro x hx
      simp only [List.mem_cons, List.not_mem_nil, or_false] at hx
      rcases hx with rfl | rfl | rfl | rfl | rfl
      exacts [hFsub _ p0.1, hFsub _ p1.1, hFsub _ p2.1, hFsub _ p3.1, hFsub _ p4.1]
  | nil =>
      by_cases h4c : get_n_of_a_kind hand 4 = []
      · by_cases hfhc : get_full_house hand = []
        · by_cases hflc : get_flush_cards hand = []
          · by_cases hstc2 : get_straight_cards hand = []
            · by_cases h3c : get_n_of_a_kind hand 3 = []
              · by_cases htpc : get_two_pair hand = []
                · by_cases h2c : get_n_of_a_kind hand 2 = []
                  · -- HIGH CARD
                    rw [eval_go_high hsf h4c hfhc hflc hstc2 h3c htpc h2c] at heval
                    injection heval with hrk hbs
                    subst hrk
                    subst hbs
                    have hone : ∀ u, (filterVal hand u).length ≤ 1 := by
                      intro u
                      have := (get_n_nil_iff (n := 2) (by norm_num)).mp h2c u
                      omega
                    have hvndh : (hand.map (fun c => c.value)).Nodup :=
                      values_nodup_of_counts hone
                    have hlen : ((sortCardsDesc hand).take 5).length = 5 := by
                      rw [List.length_take, length_sortCardsDesc]
                      omega
                    have hsorted : ((sortCardsDesc hand).take 5).Pairwise
                        (fun a b => b.value ≤ a.value) :=
                      List.Pairwise.sublist (List.take_sublist _ _) (sortCardsDesc_sorted hand)
                    have hsub : ∀ x ∈ (sortCardsDesc hand).take 5, x ∈ hand := by
                      intro x hx
                      have hx2 := (List.take_sublist _ _).subset hx
                      rw [mem_sortCardsDesc] at hx2
                      exact hx2
                    have hndT : ((sortCardsDesc hand).take 5).Nodup :=
                      List.Nodup.sublist (List.take_sublist _ _)
                        ((sortCardsDesc_perm hand).nodup_iff.mpr hnd)
                    have hstrict : ((sortCardsDesc hand).take 5).Pairwise
                        (fun a b => b.value < a.value) := by
                      refine (hsorted.and hndT).imp_of_mem ?_
                      intro a b ha hb hab
                      obtain ⟨hle, hne⟩ := hab
                      refine lt_of_le_of_ne hle ?_
                      intro hv
                      exact hne (List.inj_on_of_nodup_map hvndh (hsub a ha) (hsub b hb) hv.symm)
                    refine reeval_high hlen hstrict
                      (get_flush_cards_nil_of_subset hflc hndT hsub) ?_
                    have hmapsort : (sortCardsDesc hand).map (fun c => c.value)
                        = values_desc hand := by
                      have hperm1 : ((sortCardsDesc hand).map (fun c => c.value)).Perm
                          (hand.map (fun c => c.value)) := (sortCardsDesc_perm hand).map _
                      have hperm2 : (values_desc hand).Perm (hand.map (fun c => c.value)) := by
                        rw [values_desc, distinct_values, dedupFirst_eq_self hvndh]
                        exact sortValsDesc_perm _
                      refine List.eq_of_perm_of_sorted (r := fun a b : Nat => a ≥ b)
                        (hperm1.trans hperm2.symm) ?_ ?_
                      · exact List.pairwise_map.mpr ((sortCardsDesc_sorted hand).imp
                          (fun h => h))
                      · exact (values_desc_strict hand).imp (fun h => le_of_lt h)
                    have hmt : ((sortCardsDesc hand).take 5).map (fun c => c.value)
                        = (values_desc hand).take 5 := by
                      rw [List.map_take, hmapsort]
                    rw [hmt]
                    exact find_straight_high_none_take _ (find_none_of_straight_nil hstc2)
                  · -- PAIR
                    rw [eval_go_pair hsf h4c hfhc hflc hstc2 h3c htpc rfl h2c] at heval
                    injection heval with hrk hbs
                    subst hrk
                    subst hbs
                    rcases get_n_spec (by norm_num) h2c with ⟨v, hcount, habove, heqn⟩
                    have hmax : ∀ u, (filterVal hand u).length ≤ 2 := by
                      intro u
                      have := (get_n_nil_iff (n := 3) (by norm_num)).mp h3c u
                      omega
                    have hg2 : (filterVal hand v).length = 2 := by
                      have := hmax v
                      omega
                    have hklen : ((filterNotVal (sortCardsDesc hand) v).take 3).length = 3 := by
                      rw [kickers_length]
                      omega
                    obtain ⟨k1, k2, k3, hk⟩ := List.length_eq_three.mp hklen
                    have hm1 : k1 ∈ (filterNotVal (sortCardsDesc hand) v).take 3 := by
                      rw [hk]
                      simp
                    have hm2 : k2 ∈ (filterNotVal (sortCardsDesc hand) v).take 3 := by
                      rw [hk]
                      simp
                    have hm3 : k3 ∈ (filterNotVal (sortCardsDesc hand) v).take 3 := by
                      rw [hk]
                      simp
                    have hp1 := kickers_mem hm1
                    have hp2 := kickers_mem hm2
                    have hp3 := kickers_mem hm3
                    have hsorted := kickers_sorted hand v 3
                    rw [hk] at hsorted
                    have h12le : k2.value ≤ k1.value := by
                      rw [List.pairwise_cons] at hsorted
                      exact hsorted.1 k2 (by simp)
                    have h23le : k3.value ≤ k2.value := by
                      rw [List.pairwise_cons, List.pairwise_cons] at hsorted
                      exact hsorted.2.1 k3 (by simp)
                    have hknodup := kickers_nodup hnd v 3
                    rw [hk] at hknodup
                    have h12ne : k1 ≠ k2 := by
                      rw [List.nodup_cons] at hknodup
                      intro h
                      exact hknodup.1 (by rw [h]; simp)
                    have h23ne : k2 ≠ k3 := by
                      rw [List.nodup_cons, List.nodup_cons] at hknodup
                      intro h
                      exact hknodup.2.1 (by rw [h]; simp)
                    have honly : ∀ w, w ≠ v → (filterVal hand w).length ≤ 1 := by
                      intro w hw
                      by_contra hge
                      push_neg at hge
                      have hmw : ∃ x ∈ hand, x.value = w := by
                        rcases List.exists_mem_of_ne_nil (filterVal hand w)
                            (by intro h; rw [h] at hge; simp at hge) with ⟨x, hx⟩
                        exact ⟨x, (mem_filterVal.mp hx).1, (mem_filterVal.mp hx).2⟩
                      have hmv : ∃ x ∈ hand, x.value = v := by
                        rcases List.exists_mem_of_ne_nil (filterVal hand v)
                            (by intro h; rw [h] at hg2; cases hg2) with ⟨x, hx⟩
                        exact ⟨x, (mem_filterVal.mp hx).1, (mem_filterVal.mp hx).2⟩
                      rcases Nat.lt_or_ge v w with hvw | hvw
                      · exact get_two_pair_ne_nil hmax hmw hmv hvw (by omega) (by omega) htpc
                      · have hvw2 : w < v := by omega
                        exact get_two_pair_ne_nil hmax hmv hmw hvw2 (by omega) (by omega) htpc
                    have h12v : k2.value < k1.value := by
                      rcases Nat.lt_or_ge k2.value k1.value with h | h
                      · exact h
                      · exfalso
                        have heq2 : k1.value = k2.value := le_antisymm h h12le
                        have h2le := two_le_count_of_two_mem hp1.1 hp2.1 h12ne rfl heq2.symm
                        have := honly k1.value hp1.2
                        omega
                    have h23v : k3.value < k2.value := by
                      rcases Nat.lt_or_ge k3.value k2.value with h | h
                      · exact h
                      · exfalso
                        have heq2 : k2.value = k3.value := le_antisymm h h23le
                        have h2le := two_le_count_of_two_mem hp2.1 hp3.1 h23ne rfl heq2.symm
                        have := honly k2.value hp2.2
                        omega
                    rw [heqn, List.take_of_length_le (le_of_eq hg2), hk]
                    exact reeval_pair hg2 (fun x hx => (mem_filterVal.mp hx).2)
                      (hnd.filter _) hp1.2 hp2.2 hp3.2 h12v h23v
                · -- TWO PAIR
                  rw [eval_go_two_pair hsf h4c hfhc hflc hstc2 h3c rfl htpc] at heval
                  injection heval with hrk hbs
                  subst hrk
                  subst hbs
                  have hmax : ∀ u, (filterVal hand u).length ≤ 2 := by
                    intro u
                    have := (get_n_nil_iff (n := 3) (by norm_num)).mp h3c u
                    omega
                  rcases get_two_pair_spec hmax h5 htpc with
                    ⟨vA, vB, k, hlt, hA, hB, heq, hkmem, hkA, hkB⟩
                  rw [heq]
                  exact reeval_two_pair hA (fun x hx => (mem_filterVal.mp hx).2)
                    (hnd.filter _) hB (fun x hx => (mem_filterVal.mp hx).2) hlt hkA hkB
              · -- THREE OF A KIND
                rw [eval_go_three hsf h4c hfhc hflc hstc2 rfl h3c] at heval
                injection heval with hrk hbs
                subst hrk
                subst hbs
                rcases get_n_spec (by norm_num) h3c with ⟨v, hcount, habove, heqn⟩
                have hg3 : (filterVal hand v).length = 3 := by
                  have := (get_n_nil_iff (n := 4) (by norm_num)).mp h4c v
                  omega
                have hklen : ((filterNotVal (sortCardsDesc hand) v).take 2).length = 2 := by
                  rw [kickers_length]
                  omega
                obtain ⟨k1, k2, hk⟩ := List.length_eq_two.mp hklen
                have hm1 : k1 ∈ (filterNotVal (sortCardsDesc hand) v).take 2 := by
                  rw [hk]
                  simp
                have hm2 : k2 ∈ (filterNotVal (sortCardsDesc hand) v).take 2 := by
                  rw [hk]
                  simp
                have hp1 := kickers_mem hm1
                have hp2 := kickers_mem hm2
                have hsorted := kickers_sorted hand v 2
                rw [hk] at hsorted
                have h12le : k2.value ≤ k1.value := by
                  rw [List.pairwise_cons] at hsorted
                  exact hsorted.1 k2 (by simp)
                have hknodup := kickers_nodup hnd v 2
                rw [hk] at hknodup
                have h12ne : k1 ≠ k2 := by
                  rw [List.nodup_cons] at hknodup
                  intro h
                  exact hknodup.1 (by rw [h]; simp)
                obtain ⟨a2, l2, hfv⟩ := List.exists_cons_of_ne_nil
                  (show filterVal hand v ≠ [] by intro h; rw [h] at hg3; cases hg3)
                have hav : a2.value = v := (mem_filterVal.mp (by rw [hfv]; simp)).2
                have hal : (a2 :: l2).length = 3 := by
                  rw [← hfv]
                  exact hg3
                have heqn' : get_n_of_a_kind hand 3
                    = a2 :: (l2 ++ (filterNotVal (sortCardsDesc hand) v).take 2) := by
                  rw [heqn, hfv, List.take_of_length_le (le_of_eq hal), List.cons_append]
                have h2nil : get_n_of_a_kind (filterNotVal hand v) 2 = [] := by
                  have hfn := full_house_nil_pair_nil heqn' hfhc
                  rw [hav] at hfn
                  exact hfn
                have honly : ∀ w, w ≠ v → (filterVal hand w).length ≤ 1 := by
                  intro w hw
                  have := (get_n_nil_iff (n := 2) (by norm_num)).mp h2nil w
                  rw [filterVal_filterNotVal hw] at this
                  omega
                have h12v : k2.value < k1.value := by
                  rcases Nat.lt_or_ge k2.value k1.value with h | h
                  · exact h
                  · exfalso
                    have heq2 : k1.value = k2.value := le_antisymm h h12le
                    have h2le := two_le_count_of_two_mem hp1.1 hp2.1 h12ne rfl heq2.symm
                    have := honly k1.value hp1.2
                    omega
                rw [heqn, List.take_of_length_le (le_of_eq hg3), hk]
                exact reeval_three hg3 (fun x hx => (mem_filterVal.mp hx).2)
                  (hnd.filter _) hp1.2 hp2.2 h12v
            · -- STRAIGHT
              rw [eval_go_straight hsf h4c hfhc hflc rfl hstc2] at heval
              injection heval with hrk hbs
              subst hrk
              subst hbs
              rcases get_straight_cards_ne_nil_find hstc2 with ⟨hi, hfind⟩
              rcases get_straight_cards_spec hfind with
                ⟨hhi, c0, c1, c2, c3, c4, heq5, p0, p1, p2, p3, p4⟩
              rw [heq5]
              have hvnd5 : (([c0, c1, c2, c3, c4] : List Card).map
                  (fun c => c.value)).Nodup := by
                simp only [List.map_cons, List.map_nil, p0.2, p1.2, p2.2, p3.2, p4.2]
                simp [List.nodup_cons]
                omega
              refine reeval_straight hhi p0.2 p1.2 p2.2 p3.2 p4.2
                (get_flush_cards_nil_of_subset hflc hvnd5.of_map ?_)
              intro x hx
              simp only [List.mem_cons, List.not_mem_nil, or_false] at hx
              rcases hx with rfl | rfl | rfl | rfl | rfl
              exacts [p0.1, p1.1, p2.1, p3.1, p4.1]
          · -- FLUSH
            rw [eval_go_flush hsf h4c hfhc hflc] at heval
            injection heval with hrk hbs
            subst hrk
            subst hbs
            have hf5 := (flush_len5 hflc).1
            have htake : (get_flush_cards hand).take 5 = get_flush_cards hand :=
              List.take_of_length_le (le_of_eq hf5)
            rw [htake]
            rcases get_flush_cards_spec hflc with ⟨s, hcount, hfeq⟩
            have hsuit : ∀ x ∈ get_flush_cards hand, x.suit = s := by
              intro x hx
              rw [hfeq] at hx
              have hx2 := (List.take_sublist _ _).subset hx
              rw [mem_sortCardsDesc] at hx2
              exact (mem_filterSuit.mp hx2).2
            have hsorted : (get_flush_cards hand).Pairwise (fun a b => b.value ≤ a.value) := by
              rw [hfeq]
              exact List.Pairwise.sublist (List.take_sublist _ _) (sortCardsDesc_sorted _)
            have hndF : (get_flush_cards hand).Nodup := by
              rw [hfeq]
              exact List.Nodup.sublist (List.take_sublist _ _)
                ((sortCardsDesc_perm _).nodup_iff.mpr (hnd.filter _))
            have hstrict : (get_flush_cards hand).Pairwise (fun a b => b.value < a.value) := by
              refine (hsorted.and hndF).imp_of_mem ?_
              intro a b ha hb hab
              obtain ⟨hle, hne⟩ := hab
              rcases Nat.lt_or_ge b.value a.value with h | h
              · exact h
              · exfalso
                apply hne
                have hvv : a.value = b.value := le_antisymm h hle
                have hsa := hsuit a ha
                have hsb := hsuit b hb
                cases a
                cases b
                simp_all
            have hsfnil : get_straight_cards (get_flush_cards hand) = [] := by
              rw [sf_cards, if_neg (by simp only [List.isEmpty_eq_true]; exact hflc)] at hsf
              exact hsf
            have hfs_none : find_straight_high ((get_flush_cards hand).map
                (fun c => c.value)) = none := by
              rw [← values_desc_of_strict hstrict]
              exact find_none_of_straight_nil hsfnil
            exact reeval_flush hf5 hstrict hsuit hfs_none
        · -- FULL HOUSE
          rw [eval_go_full_house hsf h4c rfl hfhc] at heval
          injection heval with hrk hbs
          subst hrk
          subst hbs
          rcases get_full_house_spec h4c hfhc with ⟨v, w, hvw, hg3, hcw, heqf⟩
          rw [heqf]
          refine reeval_full_house hg3 (fun x hx => (mem_filterVal.mp hx).2)
            (hnd.filter _) (by rw [List.length_take]; omega)
            (fun x hx => (mem_filterVal.mp ((List.take_sublist _ _).subset hx)).2) hvw
      · -- FOUR OF A KIND
        rw [eval_go_four hsf rfl h4c] at heval
        injection heval with hrk hbs
        subst hrk
        subst hbs
        rcases get_n_spec (by norm_num) h4c with ⟨v, hcount, habove, heqn⟩
        have hg4 : (filterVal hand v).length = 4 :=
          le_antisymm (filterVal_length_le_four hnd v) hcount
        have hklen : ((filterNotVal (sortCardsDesc hand) v).take 1).length = 1 := by
          rw [kickers_length]
          omega
        obtain ⟨k, hk⟩ := List.length_eq_one.mp hklen
        have hkm : k ∈ (filterNotVal (sortCardsDesc hand) v).take 1 := by
          rw [hk]
          simp
        have hkp := kickers_mem hkm
        rw [heqn, List.take_of_length_le (le_of_eq hg4), hk]
        exact reeval_four hg4 (fun x hx => (mem_filterVal.mp hx).2) (hnd.filter _) hkp.2

theorem evaluate_idempotent_witness :
    evaluate ([⟨14, Suit.HEARTS⟩, ⟨13, Suit.HEARTS⟩, ⟨12, Suit.HEARTS⟩,
        ⟨11, Suit.HEARTS⟩, ⟨10, Suit.HEARTS⟩] : List Card)
      = some (HandRank.ROYAL_FLUSH,
          [⟨14, Suit.HEARTS⟩, ⟨13, Suit.HEARTS⟩, ⟨12, Suit.HEARTS⟩,
            ⟨11, Suit.HEARTS⟩, ⟨10, Suit.HEARTS⟩]) :=
  evaluate_idempotent
    [⟨14, Suit.HEARTS⟩, ⟨13, Suit.HEARTS⟩, ⟨12, Suit.HEARTS⟩,
      ⟨11, Suit.HEARTS⟩, ⟨10, Suit.HEARTS⟩]
    (by decide) (by decide) (by decide) HandRank.ROYAL_FLUSH
    [⟨14, Suit.HEARTS⟩, ⟨13, Suit.HEARTS⟩, ⟨12, Suit.HEARTS⟩,
      ⟨11, Suit.HEARTS⟩, ⟨10, Suit.HEARTS⟩]
    (by decide)

end BettingBot
